import Mathlib

/-!
# Verification of the green_cli wally software signer

Shallow embedding of `green_cli/authenticators/wally.py` (classes
`WallyAuthenticator` and `WallyAuthenticatorLiquid`) and proofs about it.

External libwally / secp256k1 primitives (BIP32/BIP39 derivation, ECDSA and
Anti-Exfil signing, sighash computation, Pedersen commitments) are out of the
program's scope and are modelled abstractly as fields of a `Prims` structure,
except for `asset_final_vbf` and `bip32_key_from_parent_path`, whose
documented semantics (balancing equation over the secp256k1 group order,
resp. iterated single-step child derivation) is needed by the claims and is
therefore modelled concretely.

Python byte strings are `List (Fin 256)`; hex strings produced by `.hex()` and
parsed by `bytes.fromhex` are modelled by an executable hex codec.  Fallible
operations (exceptions such as `ValueError` from bad hex, `IndexError`,
`NotImplementedError`, failed `assert`) return `Option`; `none` is the fatal
abort of the whole call.
-/

namespace GreenCli

/-- A byte, as in a Python `bytes` element. -/
abbrev Byte : Type := Fin 256

/-- A Python byte string. -/
abbrev Bytes : Type := List Byte

/-! ## Hex codec (Python `bytes.hex()` / `bytes.fromhex`) -/

/-- Lowercase hex digit for a value below 16, as produced by Python
`bytes.hex()`. -/
def hexDigitChar (n : Nat) : Char :=
  if n < 10 then Char.ofNat (48 + n) else Char.ofNat (87 + n)

/-- Value of one hex digit; accepts both cases as `bytes.fromhex` does. -/
def hexDigitVal (c : Char) : Option Nat :=
  if 48 ≤ c.toNat ∧ c.toNat ≤ 57 then some (c.toNat - 48)
  else if 97 ≤ c.toNat ∧ c.toNat ≤ 102 then some (c.toNat - 87)
  else if 65 ≤ c.toNat ∧ c.toNat ≤ 70 then some (c.toNat - 55)
  else none

/-- Character list of the hex encoding of a byte string. -/
def toHexChars : Bytes → List Char
  | [] => []
  | b :: bs => hexDigitChar (b.val / 16) :: hexDigitChar (b.val % 16) :: toHexChars bs

/-- Python `bytes.hex()`. -/
def bytesHex (bs : Bytes) : String := ⟨toHexChars bs⟩

/-- Parse a character list as hex, two digits per byte. -/
def fromHexChars : List Char → Option Bytes
  | [] => some []
  | [_] => none
  | c1 :: c2 :: cs => do
      let h ← hexDigitVal c1
      let l ← hexDigitVal c2
      let rest ← fromHexChars cs
      if hh : h < 16 then
        if hl : l < 16 then
          pure (⟨16 * h + l, by omega⟩ :: rest)
        else none
      else none

/-- Python `bytes.fromhex` (also libwally `hex_to_bytes`); `none` models the
exception raised on malformed hex. -/
def bytesFromHex (s : String) : Option Bytes := fromHexChars s.data

/-! ## Byte/scalar conversions

Blinding factors are 32-byte scalars.  libwally consumes and produces them in
internal byte order; the program stores them hex-encoded in display order and
reverses (`[::-1]`) at the boundary.  We fix the internal order to be
big-endian for the scalar interpretation. -/

/-- Little-endian byte rendering of `n` in exactly `k` bytes. -/
def natToBytesLE : Nat → Nat → Bytes
  | 0, _ => []
  | k + 1, n => ⟨n % 256, Nat.mod_lt _ (by omega)⟩ :: natToBytesLE k (n / 256)

/-- Little-endian byte interpretation. -/
def bytesToNatLE : Bytes → Nat
  | [] => 0
  | b :: bs => b.val + 256 * bytesToNatLE bs

/-- 32-byte big-endian rendering of a scalar (libwally internal order). -/
def scalarToBytes (n : Nat) : Bytes := (natToBytesLE 32 n).reverse

/-- Big-endian scalar interpretation of bytes in libwally internal order. -/
def bytesToScalar (bs : Bytes) : Nat := bytesToNatLE bs.reverse

/-! ## libwally constants used by the program -/

def WALLY_SIGHASH_ALL : Nat := 1
def WALLY_TX_FLAG_USE_WITNESS : Nat := 1
def WALLY_TX_FLAG_USE_ELEMENTS : Nat := 2
def BIP32_VER_TEST_PRIVATE : Nat := 0x04358394
def BIP32_FLAG_KEY_PRIVATE : Nat := 0
def BIP32_FLAG_KEY_PUBLIC : Nat := 1
def EC_FLAG_ECDSA : Nat := 1
def EC_FLAG_GRIND_R : Nat := 4

/-- The single sighash-type byte appended to each DER signature. -/
def sighashAllByte : Byte := ⟨WALLY_SIGHASH_ALL, by decide⟩

/-- secp256k1 group order: blinding factors are scalars modulo this. -/
def secpOrder : Nat :=
  0xFFFFFFFFFFFFFFFFFFFFFFFFFFFFFFFEBAAEDCE6AF48A03BBFD25E8CD0364141

/-! ## Data model -/

/-- A BIP32 extended key: key material, chain code, depth, parent
fingerprint (spec section 3, "ExtendedKey"). -/
structure ExtKey where
  keyData : Bytes
  chainCode : Bytes
  depth : Nat
  parentFingerprint : Bytes
deriving DecidableEq

/-- The transaction structure held by libwally: per-output asset and value
slots, written to by `tx_set_output_asset` / `tx_set_output_value`. -/
structure WallyTx where
  outputAssets : List Bytes
  outputValues : List Bytes
deriving DecidableEq

/-- `wally.tx_set_output_asset`; `none` models the error libwally raises on
an out-of-range output index. -/
def tx_set_output_asset (tx : WallyTx) (i : Nat) (a : Bytes) : Option WallyTx :=
  if i < tx.outputAssets.length then some { tx with outputAssets := tx.outputAssets.set i a }
  else none

/-- `wally.tx_set_output_value`; `none` models the error libwally raises on
an out-of-range output index. -/
def tx_set_output_value (tx : WallyTx) (i : Nat) (v : Bytes) : Option WallyTx :=
  if i < tx.outputValues.length then some { tx with outputValues := tx.outputValues.set i v }
  else none

/-- The trusted external cryptographic primitives library (libwally), kept
abstract: the program orchestrates these, it does not define them. -/
structure Prims where
  bip39_get_wordlist : String → List String
  bip39_mnemonic_from_bytes : List String → Bytes → String
  /-- Seed component of `bip39_mnemonic_to_seed512 (mnemonic, passphrase)`. -/
  bip39_mnemonic_to_seed512 : String → Option String → Bytes
  bip32_key_from_seed : Bytes → Nat → Nat → ExtKey
  /-- One parent-to-child derivation step `(key, child_num, flags)`. -/
  bip32_key_from_parent : ExtKey → Nat → Nat → ExtKey
  bip32_key_to_base58 : ExtKey → Nat → String
  bip32_key_get_priv_key : ExtKey → Bytes
  ec_sig_from_bytes : Bytes → Bytes → Nat → Bytes
  ec_sig_to_der : Bytes → Bytes
  ae_signer_commit_from_bytes : Bytes → Bytes → Bytes → Nat → Bytes
  ae_sig_from_bytes : Bytes → Bytes → Bytes → Nat → Bytes
  tx_from_hex : String → Nat → Option WallyTx
  tx_get_btc_signature_hash : WallyTx → Nat → Bytes → Nat → Nat → Nat → Bytes
  tx_get_elements_signature_hash : WallyTx → Nat → Bytes → Bytes → Nat → Nat → Bytes
  tx_confidential_value_from_satoshi : Nat → Bytes
  asset_generator_from_bytes : Bytes → Bytes → Bytes
  asset_value_commitment : Nat → Bytes → Bytes → Bytes

/-- Models libwally `bip32_key_from_parent_path`: walk the path parent to
child, applying the single-step derivation with the same flags at every
step. -/
def bip32_key_from_parent_path (p : Prims) (key : ExtKey) (path : List Nat)
    (flags : Nat) : ExtKey :=
  path.foldl (fun k childNum => p.bip32_key_from_parent k childNum flags) key

/-- Python `str.split()` with no separator: split on whitespace runs,
discarding empty pieces.  `acc` holds the current word reversed. -/
def pySplitChars : List Char → List Char → List String
  | [], [] => []
  | [], acc => [String.mk acc.reverse]
  | c :: cs, acc =>
      if c.isWhitespace then
        match acc with
        | [] => pySplitChars cs []
        | _ => String.mk acc.reverse :: pySplitChars cs []
      else pySplitChars cs (c :: acc)

/-- Python `str.split()` (no arguments). -/
def pySplit (s : String) : List String := pySplitChars s.data []

/-- The mutable state of a `WallyAuthenticator`: the mnemonic stored on
disk.  The signing core reads it and (except `create`) never writes it. -/
structure AuthState where
  _mnemonic : String
deriving DecidableEq

namespace WallyAuthenticator

/-- `WallyAuthenticator.create` (wally.py lines 32-42) up to the
out-of-scope `register` call: draw `int(words * 4 / 3)` bytes from the
entropy source (`secrets.token_bytes`), turn them into a mnemonic against the
English wordlist, `assert` the word count, store the mnemonic.  `none`
models the fatal `AssertionError`.  Nat division agrees with Python
`int(words * 4 / 3)` here. -/
def create (p : Prims) (entropySource : Nat → Byte) (words : Nat) :
    Option (String × AuthState) :=
  let entropy_len := words * 4 / 3
  let entropy := (List.range entropy_len).map entropySource
  let wordlist := p.bip39_get_wordlist ("en")
  let mnemonic := p.bip39_mnemonic_from_bytes wordlist entropy
  if (pySplit mnemonic).length = words then some (mnemonic, ⟨mnemonic⟩) else none

/-- `WallyAuthenticator.seed` property (wally.py lines 44-47): the seed half
of `bip39_mnemonic_to_seed512(self._mnemonic, None)`.  A pure read of the
state: the Python property assigns nothing. -/
def seed (p : Prims) (st : AuthState) : Bytes :=
  p.bip39_mnemonic_to_seed512 st._mnemonic none

/-- `WallyAuthenticator.master_key` property (wally.py lines 49-52). -/
def master_key (p : Prims) (st : AuthState) : ExtKey :=
  p.bip32_key_from_seed (seed p st) BIP32_VER_TEST_PRIVATE BIP32_FLAG_KEY_PRIVATE

/-- `WallyAuthenticator.derive_key` (wally.py lines 54-59): empty path gives
the master key itself, otherwise `bip32_key_from_parent_path` with the
private-key flag. -/
def derive_key (p : Prims) (st : AuthState) (path : List Nat) : ExtKey :=
  if path.isEmpty then master_key p st
  else bip32_key_from_parent_path p (master_key p st) path BIP32_FLAG_KEY_PRIVATE

/-- `WallyAuthenticator.get_xpub` (wally.py lines 61-62). -/
def get_xpub (p : Prims) (st : AuthState) (path : List Nat) : String :=
  p.bip32_key_to_base58 (derive_key p st path) BIP32_FLAG_KEY_PUBLIC

/-- `WallyAuthenticator.get_privkey` (wally.py lines 64-65). -/
def get_privkey (p : Prims) (st : AuthState) (path : List Nat) : Bytes :=
  p.bip32_key_get_priv_key (derive_key p st path)

/-- `WallyAuthenticator._make_ae_signature` (wally.py lines 67-79), with the
two AE fields of the `details` dict passed explicitly.  `none` models the
exception from malformed hex. -/
def _make_ae_signature (p : Prims) (privkey signing_hash : Bytes)
    (ae_host_commitment ae_host_entropy : String) : Option (Bytes × Bytes) := do
  let host_commitment ← bytesFromHex ae_host_commitment
  let signer_commitment :=
    p.ae_signer_commit_from_bytes privkey signing_hash host_commitment EC_FLAG_ECDSA
  let host_entropy ← bytesFromHex ae_host_entropy
  let signature := p.ae_sig_from_bytes privkey signing_hash host_entropy EC_FLAG_ECDSA
  pure (signer_commitment, signature)

end WallyAuthenticator

/-- One entry of `details['signing_inputs']` (a gdk utxo record), restricted
to the fields the signer reads. -/
structure SigningInput where
  script_type : Nat
  prevout_script : String
  satoshi : Nat
  user_path : List Nat
  confidential : Bool
  commitment : String
  ae_host_commitment : String
  ae_host_entropy : String
deriving DecidableEq

/-- One entry of `txdetails['transaction_outputs']`.  Optional fields model
dict keys the blinder may add in place; on the wire they are absent before
the call. -/
structure TxOutput where
  is_fee : Bool
  satoshi : Nat
  asset_id : String
  wally_index : Option Nat := none
  assetblinder : Option String := none
  amountblinder : Option String := none
  asset_commitment : Option String := none
  value_commitment : Option String := none
deriving DecidableEq

/-- One entry of `txdetails['used_utxos']` (or `old_used_utxos`): a spent
input endpoint with its blinding factors known from the spending context. -/
structure UsedUtxo where
  satoshi : Nat
  assetblinder : String
  amountblinder : String
deriving DecidableEq

/-- `details['transaction']`. -/
structure TxDetails where
  transaction : String
  transaction_outputs : List TxOutput
  used_utxos : List UsedUtxo
  old_used_utxos : List UsedUtxo
deriving DecidableEq

/-- The full `details` argument of `sign_tx`. -/
structure SignTxDetails where
  transaction : TxDetails
  signing_inputs : List SigningInput
  use_ae_protocol : Bool
deriving DecidableEq

/-- The record `_sign_tx` returns (before `json.dumps`, which is wire
encoding and out of scope): `signer_commitments` is present exactly when the
Python dict has that key. -/
structure SignTxResult where
  signatures : List String
  signer_commitments : Option (List String)
deriving DecidableEq

namespace WallyAuthenticator

/-- `WallyAuthenticator._get_sighash` (wally.py lines 99-103): plain segwit
sighash over the prevout script and satoshi value. -/
def _get_sighash (p : Prims) (wtx : WallyTx) (index : Nat) (utxo : SigningInput) :
    Option Bytes := do
  let prevout_script ← bytesFromHex utxo.prevout_script
  pure (p.tx_get_btc_signature_hash wtx index prevout_script utxo.satoshi
    WALLY_SIGHASH_ALL WALLY_TX_FLAG_USE_WITNESS)

/-- The list of script types accepted as segwit (wally.py line 113). -/
def segwitScriptTypes : List Nat := [14, 15, 159, 162]

/-- One iteration of the `_sign_tx` input loop (wally.py lines 112-137):
check segwit-ness, compute the sighash, derive the key, sign (AE or plain),
DER-encode and append the `WALLY_SIGHASH_ALL` byte.  Returns the hex
signature and, in AE mode, the hex signer commitment; `none` models the
fatal `NotImplementedError` on a non-segwit input or any exception below. -/
def signOneInput (p : Prims) (st : AuthState)
    (getSighash : WallyTx → Nat → SigningInput → Option Bytes)
    (use_ae_protocol : Bool) (wtx : WallyTx) (index : Nat)
    (utxo : SigningInput) : Option (String × Option String) := do
  if utxo.script_type ∈ segwitScriptTypes then
    let txhash ← getSighash wtx index utxo
    let privkey := get_privkey p st utxo.user_path
    if use_ae_protocol then
      let (signer_commitment, signature) ←
        _make_ae_signature p privkey txhash utxo.ae_host_commitment utxo.ae_host_entropy
      let der := p.ec_sig_to_der signature ++ [sighashAllByte]
      pure (bytesHex der, some (bytesHex signer_commitment))
    else
      let signature := p.ec_sig_from_bytes privkey txhash (EC_FLAG_ECDSA ||| EC_FLAG_GRIND_R)
      let der := p.ec_sig_to_der signature ++ [sighashAllByte]
      pure (bytesHex der, none)
  else none

/-- The `for index, utxo in enumerate(utxos)` accumulation of `_sign_tx`:
signatures (and in AE mode signer commitments) in input-index order.  Any
per-input failure aborts the whole loop with nothing returned. -/
def signLoop (p : Prims) (st : AuthState)
    (getSighash : WallyTx → Nat → SigningInput → Option Bytes)
    (use_ae_protocol : Bool) (wtx : WallyTx) :
    Nat → List SigningInput → Option (List String × List String)
  | _, [] => some ([], [])
  | index, utxo :: rest => do
      let (sig, sc) ← signOneInput p st getSighash use_ae_protocol wtx index utxo
      let (sigs, scs) ← signLoop p st getSighash use_ae_protocol wtx (index + 1) rest
      pure (sig :: sigs, match sc with | some c => c :: scs | none => scs)

/-- `WallyAuthenticator._sign_tx` (wally.py lines 105-141), parameterised by
the sighash method to model the dynamic dispatch of `self._get_sighash`
(overridden in the Liquid subclass).  The result dict holds the
`signer_commitments` key exactly when `use_ae_protocol` is set. -/
def _sign_tx (p : Prims) (st : AuthState)
    (getSighash : WallyTx → Nat → SigningInput → Option Bytes)
    (details : SignTxDetails) (wtx : WallyTx) : Option SignTxResult := do
  let (sigs, scs) ← signLoop p st getSighash details.use_ae_protocol wtx 0
    details.signing_inputs
  pure { signatures := sigs
         signer_commitments := if details.use_ae_protocol then some scs else none }

/-- `WallyAuthenticator.sign_tx` (wally.py lines 143-146) up to the
out-of-scope `json.dumps`: parse the transaction, sign with the plain
(btc) sighash. -/
def sign_tx (p : Prims) (st : AuthState) (details : SignTxDetails) :
    Option SignTxResult := do
  let wtx ← p.tx_from_hex details.transaction.transaction WALLY_TX_FLAG_USE_WITNESS
  _sign_tx p st (_get_sighash p) details wtx

end WallyAuthenticator

/-! ## The Liquid (confidential) subclass -/

/-- A transaction endpoint as read by the blinder: a spent input or a
blinded output, with value and hex blinding factors in display order. -/
structure Endpoint where
  satoshi : Nat
  assetblinder : String
  amountblinder : String
deriving DecidableEq

/-- A `used_utxos` entry viewed as an endpoint. -/
def UsedUtxo.toEndpoint (u : UsedUtxo) : Endpoint :=
  ⟨u.satoshi, u.assetblinder, u.amountblinder⟩

/-- A blinded output viewed as an endpoint.  The blinder only reads these
fields after it has set them, so the `""` default is never reached on the
paths the program takes (Python would raise `KeyError` there). -/
def TxOutput.toEndpoint (o : TxOutput) : Endpoint :=
  ⟨o.satoshi, o.assetblinder.getD "", o.amountblinder.getD ""⟩

/-- `bytes.fromhex(endpoint['assetblinder'])[::-1]`. -/
def endpointAbf (e : Endpoint) : Option Bytes :=
  (bytesFromHex e.assetblinder).map List.reverse

/-- `bytes.fromhex(endpoint['amountblinder'])[::-1]`. -/
def endpointVbf (e : Endpoint) : Option Bytes :=
  (bytesFromHex e.amountblinder).map List.reverse

/-- Split a byte string into exactly `n` scalars of 32 bytes; `none` when
the length is not `32 * n` (libwally rejects such input). -/
def chunkScalars : Nat → Bytes → Option (List Bytes)
  | 0, [] => some []
  | 0, _ :: _ => none
  | n + 1, bs =>
      let c := bs.take 32
      if c.length = 32 then (chunkScalars n (bs.drop 32)).map (c :: ·) else none

/-- Models libwally `asset_final_vbf(values, num_inputs, abfs, vbfs)`: the
value blinding factor for the last output such that the signed sum of the
value-blinding contributions `value * abf + vbf` of all endpoints — the
first `num_inputs` endpoints (the inputs) counted positive, the rest (the
outputs) negative — is zero modulo the secp256k1 group order.  `abfs` holds
one 32-byte scalar per endpoint, `vbfs` one per endpoint except the last. -/
def asset_final_vbf (values : List Nat) (num_inputs : Nat) (abfs vbfs : Bytes) :
    Option Bytes :=
  let n := values.length
  if num_inputs < n then
    match chunkScalars n abfs, chunkScalars (n - 1) vbfs with
    | some abfL, some vbfL =>
        let cs := ((values.zip abfL).zip vbfL).map fun p =>
          (p.1.1 : Int) * bytesToScalar p.1.2 + bytesToScalar p.2
        let sIn := (cs.take num_inputs).sum
        let sOut := (cs.drop num_inputs).sum
        let lastTerm : Int := (values.getLastD 0 : Int) * bytesToScalar (abfL.getLastD [])
        let f : Int := (sIn - sOut - lastTerm) % (secpOrder : Int)
        some (scalarToBytes f.toNat)
    | _, _ => none
  else none

/-- The `for i, o in enumerate(transaction_outputs): o['wally_index'] = i`
loop (wally.py lines 183-184), with the running index explicit. -/
def assignWallyIndexFrom (i : Nat) : List TxOutput → List TxOutput
  | [] => []
  | o :: rest => { o with wally_index := some i } :: assignWallyIndexFrom (i + 1) rest

/-- The enumerate loop starting at index 0. -/
def assignWallyIndex (outs : List TxOutput) : List TxOutput :=
  assignWallyIndexFrom 0 outs

/-- The `for output in blinded_outputs` loop drawing fresh random blinding
factors (wally.py lines 186-191), purified: the Python loop mutates the
records shared between `blinded_outputs` and `transaction_outputs`, so here
the whole output list is walked, skipping fee outputs; `k` counts blinded
outputs so far and the `j`-th `os.urandom(32)` call returns `rand j`
(asset blinder first, then amount blinder, per blinded output). -/
def assignBlinders (rand : Nat → Bytes) : Nat → List TxOutput → List TxOutput
  | _, [] => []
  | k, o :: rest =>
      if o.is_fee then o :: assignBlinders rand k rest
      else { o with assetblinder := some (bytesHex (rand (2 * k))),
                    amountblinder := some (bytesHex (rand (2 * k + 1))) }
           :: assignBlinders rand (k + 1) rest

/-- `blinded_outputs[-1]['amountblinder'] = final_vbf[::-1].hex()`
(wally.py line 198) on the full output list: overwrite the amount blinder
of the last non-fee output; `none` models the `IndexError` when there is no
blinded output. -/
def setLastBlindedVbf (vbfHex : String) : List TxOutput → Option (List TxOutput)
  | [] => none
  | o :: rest =>
      if rest.any (fun r => !r.is_fee) then
        (setLastBlindedVbf vbfHex rest).map (o :: ·)
      else if o.is_fee then none
      else some ({ o with amountblinder := some vbfHex } :: rest)

/-- The commitment loop (wally.py lines 200-209), walking the full output
list and skipping fee outputs (which are not in `blinded_outputs`): compute
the asset generator and value commitment, store their hex in the output
record, and write them into the wally transaction at the output's original
index. -/
def computeCommitments (p : Prims) :
    List TxOutput → WallyTx → Option (List TxOutput × WallyTx)
  | [], tx => some ([], tx)
  | o :: rest, tx =>
      if o.is_fee then
        (computeCommitments p rest tx).map fun r => (o :: r.1, r.2)
      else do
        let assetIdBytes ← bytesFromHex o.asset_id
        let abfBytes ← bytesFromHex (o.assetblinder.getD "")
        let asset_commitment :=
          p.asset_generator_from_bytes assetIdBytes.reverse abfBytes.reverse
        let vbfBytes ← bytesFromHex (o.amountblinder.getD "")
        let value_commitment :=
          p.asset_value_commitment o.satoshi vbfBytes.reverse asset_commitment
        let o2 := { o with asset_commitment := some (bytesHex asset_commitment),
                           value_commitment := some (bytesHex value_commitment) }
        let wi ← o.wally_index
        let tx2 ← tx_set_output_asset tx wi asset_commitment
        let tx3 ← tx_set_output_value tx2 wi value_commitment
        let r ← computeCommitments p rest tx3
        pure (o2 :: r.1, r.2)

/-- The four parallel lists `_get_blinding_factors` returns (wally.py lines
211-217): one slot per transaction output, `o.get(key, '')` so outputs that
never received a field (the fee output) get the empty string. -/
structure BlindingResult where
  assetblinders : List String
  amountblinders : List String
  asset_commitments : List String
  value_commitments : List String
deriving DecidableEq

namespace WallyAuthenticatorLiquid

/-- `WallyAuthenticatorLiquid._get_blinding_factors` (wally.py lines
180-217).  Returns the four parallel lists together with the mutated
`transaction_outputs` records and the mutated wally transaction (the Python
function updates both in place).  `rand` is the `os.urandom(32)` stream. -/
def _get_blinding_factors (p : Prims) (rand : Nat → Bytes)
    (txdetails : TxDetails) (wally_tx : WallyTx) :
    Option (BlindingResult × List TxOutput × WallyTx) := do
  -- Python `or`: an empty (or missing) used_utxos list falls back
  let utxos := if txdetails.used_utxos ≠ [] then txdetails.used_utxos
               else txdetails.old_used_utxos
  let outs1 := assignWallyIndex txdetails.transaction_outputs
  let outs2 := assignBlinders rand 0 outs1
  let blinded := outs2.filter fun o => !o.is_fee
  let endpoints := utxos.map UsedUtxo.toEndpoint ++ blinded.map TxOutput.toEndpoint
  let values := endpoints.map (·.satoshi)
  let abfChunks ← endpoints.mapM endpointAbf
  let vbfChunks ← endpoints.dropLast.mapM endpointVbf
  let final_vbf ← asset_final_vbf values utxos.length abfChunks.flatten vbfChunks.flatten
  let outs3 ← setLastBlindedVbf (bytesHex final_vbf.reverse) outs2
  let r ← computeCommitments p outs3 wally_tx
  let retval : BlindingResult :=
    { assetblinders := r.1.map fun o => o.assetblinder.getD ""
      amountblinders := r.1.map fun o => o.amountblinder.getD ""
      asset_commitments := r.1.map fun o => o.asset_commitment.getD ""
      value_commitments := r.1.map fun o => o.value_commitment.getD "" }
  pure (retval, r.1, r.2)

/-- `WallyAuthenticatorLiquid._get_sighash` (wally.py lines 219-227): the
Elements sighash over the input's value commitment when the input is
confidential, else over the confidential encoding of its plain satoshi
value. -/
def _get_sighash (p : Prims) (wtx : WallyTx) (index : Nat)
    (utxo : SigningInput) : Option Bytes := do
  let prevout_script ← bytesFromHex utxo.prevout_script
  let value ← if utxo.confidential then bytesFromHex utxo.commitment
              else some (p.tx_confidential_value_from_satoshi utxo.satoshi)
  pure (p.tx_get_elements_signature_hash wtx index prevout_script value
    WALLY_SIGHASH_ALL WALLY_TX_FLAG_USE_WITNESS)

/-- `WallyAuthenticatorLiquid.sign_tx` (wally.py lines 229-237) up to the
out-of-scope `json.dumps`: parse the transaction with the Elements flag,
blind, then run the inherited `_sign_tx` with the overridden sighash; the
result dict is the union of the blinding lists and the signing result. -/
def sign_tx (p : Prims) (st : AuthState) (rand : Nat → Bytes)
    (details : SignTxDetails) : Option (BlindingResult × SignTxResult) := do
  let wtx ← p.tx_from_hex details.transaction.transaction
    (WALLY_TX_FLAG_USE_WITNESS ||| WALLY_TX_FLAG_USE_ELEMENTS)
  let r ← _get_blinding_factors p rand details.transaction wtx
  let sigs ← WallyAuthenticator._sign_tx p st (_get_sighash p) details r.2.2
  pure (r.1, sigs)

end WallyAuthenticatorLiquid

/-! ## Derived notions used to state properties -/

/-- The scalar a display-order hex blinding factor denotes: decode, reverse
to internal order, read big-endian. -/
def blinderScalar (s : String) : Nat :=
  bytesToScalar (((bytesFromHex s).getD []).reverse)

/-- The value-blinding contribution `value * abf + vbf` of an endpoint. -/
def Endpoint.contribution (e : Endpoint) : Int :=
  (e.satoshi : Int) * blinderScalar e.assetblinder + blinderScalar e.amountblinder

/-- Contribution of a spent input (positive side of the balance). -/
def utxoContribution (u : UsedUtxo) : Int := u.toEndpoint.contribution

/-- Contribution of a blinded output (negative side of the balance). -/
def outputContribution (o : TxOutput) : Int := o.toEndpoint.contribution

/-- The non-fee outputs, in original order. -/
def blindedOf (outs : List TxOutput) : List TxOutput :=
  outs.filter fun o => !o.is_fee

/-- The input-endpoint list the blinder settles on (Python
`used_utxos or old_used_utxos`). -/
def chosenUtxos (txd : TxDetails) : List UsedUtxo :=
  if txd.used_utxos ≠ [] then txd.used_utxos else txd.old_used_utxos

/-- Giving the `m`-th blinded output its two fresh random draws. -/
def freshUpd (rand : Nat → Bytes) (m : Nat) (o : TxOutput) : TxOutput :=
  { o with assetblinder := some (bytesHex (rand (2 * m))),
           amountblinder := some (bytesHex (rand (2 * m + 1))) }

/-- Overwriting an output record's amount blinder. -/
def vbfUpd (v : String) (o : TxOutput) : TxOutput :=
  { o with amountblinder := some v }

/-- What the random-blinder loop does to the blinded sublist: the `k`-th
blinded output receives draws `2k` (asset) and `2k+1` (amount). -/
def freshBlinded (rand : Nat → Bytes) : Nat → List TxOutput → List TxOutput
  | _, [] => []
  | k, o :: rest => freshUpd rand k o :: freshBlinded rand (k + 1) rest

/-- The 32 internal-order bytes of an endpoint's asset blinding factor. -/
def abfPiece (e : Endpoint) : Bytes :=
  ((bytesFromHex e.assetblinder).getD []).reverse

/-- The 32 internal-order bytes of an endpoint's value blinding factor. -/
def vbfPiece (e : Endpoint) : Bytes :=
  ((bytesFromHex e.amountblinder).getD []).reverse

/-- What setting the last blinded output's amount blinder does to the
blinded sublist: replace the amount blinder of the final element. -/
def applyLastVbf (v : String) : List TxOutput → List TxOutput
  | [] => []
  | [o] => [vbfUpd v o]
  | o :: rest@(_ :: _) => o :: applyLastVbf v rest

/-- What the commitment loop does to a single output record. -/
def commitUpd (p : Prims) (o : TxOutput) : TxOutput :=
  if o.is_fee then o
  else
    let asset_commitment :=
      p.asset_generator_from_bytes (((bytesFromHex o.asset_id).getD []).reverse)
        (((bytesFromHex (o.assetblinder.getD "")).getD []).reverse)
    let value_commitment :=
      p.asset_value_commitment o.satoshi
        (((bytesFromHex (o.amountblinder.getD "")).getD []).reverse) asset_commitment
    { o with asset_commitment := some (bytesHex asset_commitment),
             value_commitment := some (bytesHex value_commitment) }

/-- A hex blinding factor decodes to exactly 32 bytes (what gdk hands the
signer for spent inputs). -/
def hexScalarOk (s : String) : Prop := (bytesFromHex s).map List.length = some 32

instance (s : String) : Decidable (hexScalarOk s) := by
  unfold hexScalarOk; infer_instance

/-! ## Concrete instances used by the witnesses -/

/-- A fixed 24-word mnemonic string. -/
def mnemonic24 : String :=
  "w w w w w w w w w w w w w w w w w w w w w w w w"

/-- A trivial extended key. -/
def trivExtKey : ExtKey := ⟨[], [], 0, []⟩

/-- A trivial instantiation of the primitives library, rich enough to make
the concrete scenarios run: the parsed transaction has two outputs and
Pedersen commitments are 33 zero bytes. -/
def trivPrims : Prims where
  bip39_get_wordlist := fun _ => []
  bip39_mnemonic_from_bytes := fun _ _ => mnemonic24
  bip39_mnemonic_to_seed512 := fun _ _ => []
  bip32_key_from_seed := fun _ _ _ => trivExtKey
  bip32_key_from_parent := fun k _ _ => { k with depth := k.depth + 1 }
  bip32_key_to_base58 := fun _ _ => ""
  bip32_key_get_priv_key := fun _ => []
  ec_sig_from_bytes := fun _ _ _ => []
  ec_sig_to_der := fun s => s
  ae_signer_commit_from_bytes := fun _ _ _ _ => []
  ae_sig_from_bytes := fun _ _ _ _ => []
  tx_from_hex := fun _ _ => some ⟨[[], []], [[], []]⟩
  tx_get_btc_signature_hash := fun _ _ _ _ _ _ => []
  tx_get_elements_signature_hash := fun _ _ _ _ _ _ => []
  tx_confidential_value_from_satoshi := fun _ => []
  asset_generator_from_bytes := fun _ _ => List.replicate 33 0
  asset_value_commitment := fun _ _ _ => List.replicate 33 0

/-- 64 hex zeros: a valid display-order 32-byte scalar. -/
def zeros64 : String := String.mk (List.replicate 64 '0')

/-- The `os.urandom` stream for witnesses: every draw is 32 zero bytes. -/
def wRand : Nat → Bytes := fun _ => List.replicate 32 0

/-- Entropy source for the create witness. -/
def wEntropy : Nat → Byte := fun _ => 0

def wState : AuthState := ⟨("m")⟩

/-- A segwit signing input. -/
def wIn : SigningInput :=
  { script_type := 14, prevout_script := ("00"), satoshi := 5, user_path := [0]
    confidential := false, commitment := (""), ae_host_commitment := ("00")
    ae_host_entropy := ("00") }

/-- A confidential segwit signing input. -/
def wInConf : SigningInput := { wIn with confidential := true, commitment := ("11") }

/-- A non-segwit signing input. -/
def wInBad : SigningInput := { wIn with script_type := 0 }

def wOutBlinded : TxOutput := { is_fee := false, satoshi := 2, asset_id := zeros64 }

def wOutFee : TxOutput := { is_fee := true, satoshi := 1, asset_id := ("") }

def wUtxo : UsedUtxo := ⟨3, zeros64, zeros64⟩

def wTxDetails : TxDetails :=
  { transaction := (""), transaction_outputs := [wOutBlinded, wOutFee]
    used_utxos := [wUtxo, wUtxo], old_used_utxos := [] }

/-- A one-segwit-input AE-mode signing request. -/
def wDetailsAE : SignTxDetails :=
  { transaction := wTxDetails, signing_inputs := [wIn], use_ae_protocol := true }

/-- The same request with the AE protocol off. -/
def wDetailsPlain : SignTxDetails := { wDetailsAE with use_ae_protocol := false }

/-- A request whose only input is non-segwit. -/
def wDetailsBad : SignTxDetails := { wDetailsAE with signing_inputs := [wInBad] }

/-- A two-output wally transaction matching `wTxDetails`. -/
def wWallyTx : WallyTx := ⟨[[], []], [[], []]⟩

/-! ## Helper lemmas: hex codec and scalar rendering -/

theorem hexDigitVal_hexDigitChar (n : Nat) (h : n < 16) :
    hexDigitVal (hexDigitChar n) = some n := by
  revert h
  revert n
  decide

/-- Round trip: decoding the hex encoding of bytes gives back the bytes. -/
theorem fromHexChars_toHexChars (bs : Bytes) :
    fromHexChars (toHexChars bs) = some bs := by
  induction bs with
  | nil => rfl
  | cons b bs ih =>
      have hdiv : b.val / 16 < 16 := by omega
      have hmod : b.val % 16 < 16 := by omega
      simp only [toHexChars, fromHexChars, hexDigitVal_hexDigitChar _ hdiv,
        hexDigitVal_hexDigitChar _ hmod, Option.bind_eq_bind, Option.some_bind, ih]
      simp only [hdiv, hmod, dite_true, Option.some_bind]
      congr 2
      apply Fin.ext
      simp only []
      omega

theorem bytesFromHex_bytesHex (bs : Bytes) :
    bytesFromHex (bytesHex bs) = some bs :=
  fromHexChars_toHexChars bs

theorem toHexChars_length (bs : Bytes) :
    (toHexChars bs).length = 2 * bs.length := by
  induction bs with
  | nil => rfl
  | cons b bs ih => simp [toHexChars, ih]; omega

theorem bytesHex_ne_empty {bs : Bytes} (h : bs ≠ []) : bytesHex bs ≠ "" := by
  intro hcontra
  have hdata : toHexChars bs = [] := congrArg String.data hcontra
  have : (toHexChars bs).length = 0 := by simp [hdata]
  rw [toHexChars_length] at this
  exact h (List.length_eq_zero.mp (by omega))

theorem natToBytesLE_length (k n : Nat) : (natToBytesLE k n).length = k := by
  induction k generalizing n with
  | zero => rfl
  | succ k ih => simp [natToBytesLE, ih]

theorem bytesToNatLE_natToBytesLE (k n : Nat) (h : n < 256 ^ k) :
    bytesToNatLE (natToBytesLE k n) = n := by
  induction k generalizing n with
  | zero => simp at h; simp [natToBytesLE, bytesToNatLE, h]
  | succ k ih =>
      simp only [natToBytesLE, bytesToNatLE]
      rw [ih (n / 256) (by
        have hpow : 256 ^ (k + 1) = 256 ^ k * 256 := by ring
        rw [hpow] at h
        exact Nat.div_lt_of_lt_mul (by omega))]
      omega

theorem scalarToBytes_length (n : Nat) : (scalarToBytes n).length = 32 := by
  simp [scalarToBytes, natToBytesLE_length]

theorem bytesToScalar_scalarToBytes (n : Nat) (h : n < 256 ^ 32) :
    bytesToScalar (scalarToBytes n) = n := by
  simp only [bytesToScalar, scalarToBytes, List.reverse_reverse]
  exact bytesToNatLE_natToBytesLE 32 n h

/-! ## C7: key derivation -/

/-- C7: the empty derivation path returns exactly the master extended key,
and every non-empty path walks parent-to-child derivation from the master
key with the private-key flag at every step. -/
theorem derive_key_path_spec (p : Prims) (st : AuthState) :
    WallyAuthenticator.derive_key p st [] = WallyAuthenticator.master_key p st ∧
    ∀ path : List Nat, path ≠ [] →
      WallyAuthenticator.derive_key p st path =
        path.foldl (fun k c => p.bip32_key_from_parent k c BIP32_FLAG_KEY_PRIVATE)
          (WallyAuthenticator.master_key p st) := by
  refine ⟨rfl, fun path hp => ?_⟩
  simp [WallyAuthenticator.derive_key, List.isEmpty_iff, hp, bip32_key_from_parent_path]

theorem derive_key_path_spec_witness :
    WallyAuthenticator.derive_key trivPrims wState [] =
      WallyAuthenticator.master_key trivPrims wState ∧
    WallyAuthenticator.derive_key trivPrims wState [0, 1] =
      [0, 1].foldl (fun k c => trivPrims.bip32_key_from_parent k c BIP32_FLAG_KEY_PRIVATE)
        (WallyAuthenticator.master_key trivPrims wState) :=
  ⟨(derive_key_path_spec trivPrims wState).1,
   (derive_key_path_spec trivPrims wState).2 [0, 1] (by decide)⟩

/-! ## C9: determinism of seed and master key -/

/-- C9: `seed` and `master_key` are pure functions of the stored mnemonic
(the embedding is a function of the state, mirroring that the Python
properties assign nothing): two states with the same mnemonic give
byte-identical seeds and identical master keys. -/
theorem seed_master_key_deterministic (p : Prims) (s1 s2 : AuthState)
    (h : s1._mnemonic = s2._mnemonic) :
    WallyAuthenticator.seed p s1 = WallyAuthenticator.seed p s2 ∧
    WallyAuthenticator.master_key p s1 = WallyAuthenticator.master_key p s2 := by
  unfold WallyAuthenticator.master_key WallyAuthenticator.seed
  rw [h]
  exact ⟨rfl, rfl⟩

theorem seed_master_key_deterministic_witness :
    WallyAuthenticator.seed trivPrims wState = WallyAuthenticator.seed trivPrims wState ∧
    WallyAuthenticator.master_key trivPrims wState =
      WallyAuthenticator.master_key trivPrims wState :=
  seed_master_key_deterministic trivPrims wState wState rfl

/-! ## C8: wallet creation -/

/-- C8: `create` draws exactly `words * 4 / 3` bytes of entropy from the
secure source, and the assertion makes it succeed exactly when the mnemonic
built from those bytes has exactly `words` words; on success the stored
mnemonic has exactly `words` words. -/
theorem create_entropy_and_word_count (p : Prims) (src : Nat → Byte) (words : Nat) :
    (∀ m st, WallyAuthenticator.create p src words = some (m, st) →
      (pySplit m).length = words ∧ st._mnemonic = m) ∧
    ((List.range (words * 4 / 3)).map src).length = words * 4 / 3 ∧
    ((WallyAuthenticator.create p src words).isSome ↔
      (pySplit (p.bip39_mnemonic_from_bytes (p.bip39_get_wordlist ("en"))
        ((List.range (words * 4 / 3)).map src))).length = words) := by
  refine ⟨?_, by simp, ?_⟩
  · intro m st h
    unfold WallyAuthenticator.create at h
    dsimp only at h
    split at h
    next hc =>
      obtain ⟨rfl, rfl⟩ : _ ∧ _ := by
        injection h with h'
        injection h' with h1 h2
        exact ⟨h1.symm, h2.symm⟩
      exact ⟨hc, rfl⟩
    next => exact absurd h (by simp)
  · unfold WallyAuthenticator.create
    dsimp only
    split <;> simp_all

theorem create_entropy_and_word_count_witness :
    (pySplit mnemonic24).length = 24 ∧
    ((List.range (24 * 4 / 3)).map wEntropy).length = 24 * 4 / 3 :=
  ⟨((create_entropy_and_word_count trivPrims wEntropy 24).1 mnemonic24 ⟨mnemonic24⟩
      (by decide)).1,
   (create_entropy_and_word_count trivPrims wEntropy 24).2.1⟩

/-! ## C2: per-input value/commitment selection in the Elements sighash -/

/-- C2: the Liquid per-input sighash is computed over the input's value
commitment when its `confidential` flag is set, and over the confidential
encoding of its plaintext satoshi value when it is not; the flag is read
from the individual input. -/
theorem elements_sighash_value_selection (p : Prims) (wtx : WallyTx) (index : Nat)
    (utxo : SigningInput) (ps : Bytes)
    (hps : bytesFromHex utxo.prevout_script = some ps) :
    (utxo.confidential = true → ∀ c, bytesFromHex utxo.commitment = some c →
      WallyAuthenticatorLiquid._get_sighash p wtx index utxo =
        some (p.tx_get_elements_signature_hash wtx index ps c
          WALLY_SIGHASH_ALL WALLY_TX_FLAG_USE_WITNESS)) ∧
    (utxo.confidential = false →
      WallyAuthenticatorLiquid._get_sighash p wtx index utxo =
        some (p.tx_get_elements_signature_hash wtx index ps
          (p.tx_confidential_value_from_satoshi utxo.satoshi)
          WALLY_SIGHASH_ALL WALLY_TX_FLAG_USE_WITNESS)) := by
  unfold WallyAuthenticatorLiquid._get_sighash
  constructor
  · intro hconf c hc
    simp [hps, hconf, hc]
  · intro hconf
    simp [hps, hconf]

theorem elements_sighash_value_selection_witness :
    (WallyAuthenticatorLiquid._get_sighash trivPrims wWallyTx 0 wInConf =
      some (trivPrims.tx_get_elements_signature_hash wWallyTx 0 [0] [17]
        WALLY_SIGHASH_ALL WALLY_TX_FLAG_USE_WITNESS)) ∧
    (WallyAuthenticatorLiquid._get_sighash trivPrims wWallyTx 0 wIn =
      some (trivPrims.tx_get_elements_signature_hash wWallyTx 0 [0]
        (trivPrims.tx_confidential_value_from_satoshi wIn.satoshi)
        WALLY_SIGHASH_ALL WALLY_TX_FLAG_USE_WITNESS)) :=
  ⟨(elements_sighash_value_selection trivPrims wWallyTx 0 wInConf [0] (by decide)).1
      (by decide) [17] (by decide),
   (elements_sighash_value_selection trivPrims wWallyTx 0 wIn [0] (by decide)).2
      (by decide)⟩

/-! ## C3: a non-segwit input aborts the whole signing call -/

theorem signLoop_none_of_bad (p : Prims) (st : AuthState)
    (gs : WallyTx → Nat → SigningInput → Option Bytes) (ae : Bool) (wtx : WallyTx) :
    ∀ (inputs : List SigningInput) (idx : Nat),
      (∃ u ∈ inputs, u.script_type ∉ WallyAuthenticator.segwitScriptTypes) →
      WallyAuthenticator.signLoop p st gs ae wtx idx inputs = none := by
  intro inputs
  induction inputs with
  | nil => rintro idx ⟨u, hu, _⟩; simp at hu
  | cons a l ih =>
      rintro idx ⟨u, hu, hbad⟩
      rcases List.mem_cons.mp hu with rfl | hmem
      · have hfail : WallyAuthenticator.signOneInput p st gs ae wtx idx u = none := by
          unfold WallyAuthenticator.signOneInput
          simp [hbad]
        simp [WallyAuthenticator.signLoop, hfail]
      · cases hso : WallyAuthenticator.signOneInput p st gs ae wtx idx a with
        | none => simp [WallyAuthenticator.signLoop, hso]
        | some r =>
            have hrest := ih (idx + 1) ⟨u, hmem, hbad⟩
            simp [WallyAuthenticator.signLoop, hso, hrest]

/-- C3: when any input of the request has a non-segwit script type, the
transaction-signing call fails fatally as a whole — the shared `_sign_tx`
core, the plain `sign_tx` entry and the Liquid `sign_tx` entry all return
nothing, never a partial signature list. -/
theorem nonsegwit_input_aborts_whole_call (p : Prims) (st : AuthState)
    (gs : WallyTx → Nat → SigningInput → Option Bytes)
    (details : SignTxDetails)
    (hbad : ∃ u ∈ details.signing_inputs,
      u.script_type ∉ WallyAuthenticator.segwitScriptTypes) :
    (∀ wtx, WallyAuthenticator._sign_tx p st gs details wtx = none) ∧
    WallyAuthenticator.sign_tx p st details = none ∧
    (∀ rand, WallyAuthenticatorLiquid.sign_tx p st rand details = none) := by
  have hcore : ∀ gs' wtx, WallyAuthenticator._sign_tx p st gs' details wtx = none := by
    intro gs' wtx
    unfold WallyAuthenticator._sign_tx
    simp [signLoop_none_of_bad p st gs' details.use_ae_protocol wtx
      details.signing_inputs 0 hbad]
  refine ⟨hcore gs, ?_, ?_⟩
  · unfold WallyAuthenticator.sign_tx
    cases htx : p.tx_from_hex details.transaction.transaction WALLY_TX_FLAG_USE_WITNESS with
    | none => simp
    | some wtx => simp [hcore _ wtx]
  · intro rand
    unfold WallyAuthenticatorLiquid.sign_tx
    cases htx : p.tx_from_hex details.transaction.transaction
        (WALLY_TX_FLAG_USE_WITNESS ||| WALLY_TX_FLAG_USE_ELEMENTS) with
    | none => simp
    | some wtx =>
        cases hbl : WallyAuthenticatorLiquid._get_blinding_factors p rand
            details.transaction wtx with
        | none => simp [htx, hbl]
        | some r => simp [htx, hbl, hcore]

theorem nonsegwit_input_aborts_whole_call_witness :
    WallyAuthenticator.sign_tx trivPrims wState wDetailsBad = none :=
  (nonsegwit_input_aborts_whole_call trivPrims wState
    (WallyAuthenticator._get_sighash trivPrims) wDetailsBad
    ⟨wInBad, by decide, by decide⟩).2.1

/-! ## C5: shape and order of the returned signature lists -/

theorem signOneInput_shape (p : Prims) (st : AuthState)
    (gs : WallyTx → Nat → SigningInput → Option Bytes) (ae : Bool) (wtx : WallyTx)
    (idx : Nat) (utxo : SigningInput) (sig : String) (sc : Option String)
    (h : WallyAuthenticator.signOneInput p st gs ae wtx idx utxo = some (sig, sc)) :
    (∃ raw, sig = bytesHex (p.ec_sig_to_der raw ++ [sighashAllByte])) ∧
    sc.isSome = ae := by
  unfold WallyAuthenticator.signOneInput at h
  split at h
  · cases ae with
    | true =>
        simp only [if_true, Option.bind_eq_bind, Option.bind_eq_some] at h
        obtain ⟨txhash, _, h⟩ := h
        obtain ⟨⟨scb, raw⟩, _, h⟩ := h
        simp only [Option.pure_def, Option.some_inj, Prod.mk.injEq] at h
        obtain ⟨rfl, rfl⟩ := h
        exact ⟨⟨raw, rfl⟩, rfl⟩
    | false =>
        simp only [if_false, Option.bind_eq_bind, Option.bind_eq_some] at h
        obtain ⟨txhash, _, h⟩ := h
        simp only [Option.pure_def, Option.some_inj, Prod.mk.injEq] at h
        obtain ⟨rfl, rfl⟩ := h
        exact ⟨⟨_, rfl⟩, rfl⟩
  · exact absurd h (by simp)

theorem signLoop_spec (p : Prims) (st : AuthState)
    (gs : WallyTx → Nat → SigningInput → Option Bytes) (ae : Bool) (wtx : WallyTx) :
    ∀ (inputs : List SigningInput) (idx : Nat) (sigs scs : List String),
      WallyAuthenticator.signLoop p st gs ae wtx idx inputs = some (sigs, scs) →
      sigs.length = inputs.length ∧
      (ae = true → scs.length = inputs.length) ∧
      (ae = false → scs = []) ∧
      (∀ i u, inputs[i]? = some u →
        ∃ sig sc, sigs[i]? = some sig ∧
          WallyAuthenticator.signOneInput p st gs ae wtx (idx + i) u = some (sig, sc)) ∧
      (ae = true → ∀ i u, inputs[i]? = some u →
        ∃ sig c, sigs[i]? = some sig ∧ scs[i]? = some c ∧
          WallyAuthenticator.signOneInput p st gs ae wtx (idx + i) u =
            some (sig, some c)) := by
  intro inputs
  induction inputs with
  | nil =>
      intro idx sigs scs h
      simp only [WallyAuthenticator.signLoop, Option.pure_def, Option.some_inj,
        Prod.mk.injEq] at h
      obtain ⟨rfl, rfl⟩ := h
      refine ⟨rfl, fun _ => rfl, fun _ => rfl, fun i u hu => ?_, fun _ i u hu => ?_⟩
      · simp only [List.getElem?_nil] at hu
        exact Option.noConfusion hu
      · simp only [List.getElem?_nil] at hu
        exact Option.noConfusion hu
  | cons a l ih =>
      intro idx sigs scs h
      simp only [WallyAuthenticator.signLoop, Option.bind_eq_bind,
        Option.bind_eq_some] at h
      obtain ⟨⟨sig0, sc0⟩, h0, h⟩ := h
      obtain ⟨⟨sigs', scs'⟩, hrest, h⟩ := h
      simp only [Option.pure_def, Option.some_inj, Prod.mk.injEq] at h
      obtain ⟨rfl, rfl⟩ := h
      obtain ⟨hlen, hae, hnae, hidx, haeidx⟩ := ih (idx + 1) sigs' scs' hrest
      have hsc0 := (signOneInput_shape p st gs ae wtx idx a sig0 sc0 h0).2
      refine ⟨by simp [hlen], ?_, ?_, ?_, ?_⟩
      · intro hA
        subst hA
        obtain ⟨c, rfl⟩ := Option.isSome_iff_exists.mp hsc0
        simp [hae rfl]
      · intro hA
        subst hA
        have : sc0 = none := by
          cases sc0 with
          | none => rfl
          | some c => simp at hsc0
        simp [this, hnae rfl]
      · intro i u hu
        cases i with
        | zero =>
            simp only [List.getElem?_cons_zero, Option.some_inj] at hu
            subst hu
            exact ⟨sig0, sc0, by simp, by simpa using h0⟩
        | succ i =>
            simp only [List.getElem?_cons_succ] at hu
            obtain ⟨sig, sc, hs, hso⟩ := hidx i u hu
            refine ⟨sig, sc, by simpa using hs, ?_⟩
            have harith : idx + 1 + i = idx + (i + 1) := by omega
            rwa [harith] at hso
      · intro hA i u hu
        subst hA
        obtain ⟨c0, rfl⟩ := Option.isSome_iff_exists.mp hsc0
        cases i with
        | zero =>
            simp only [List.getElem?_cons_zero, Option.some_inj] at hu
            subst hu
            exact ⟨sig0, c0, by simp, by simp, by simpa using h0⟩
        | succ i =>
            simp only [List.getElem?_cons_succ] at hu
            obtain ⟨sig, c, hs, hc, hso⟩ := haeidx rfl i u hu
            refine ⟨sig, c, by simpa using hs, by simpa using hc, ?_⟩
            have harith : idx + 1 + i = idx + (i + 1) := by omega
            rwa [harith] at hso

/-- C5: on success, `_sign_tx` returns one signature per signing input in
input-index order (the `i`-th entry is the result of processing the `i`-th
input), each entry the hex of the DER-encoded signature followed by exactly
the single `WALLY_SIGHASH_ALL` byte; and in AE mode a signer-commitments
list of the same length is accumulated alongside, parallel and in the same
order: its `i`-th entry is the signer commitment produced by the very
`signOneInput` call that produced the `i`-th signature. -/
theorem sign_tx_result_shape (p : Prims) (st : AuthState)
    (gs : WallyTx → Nat → SigningInput → Option Bytes)
    (details : SignTxDetails) (wtx : WallyTx) (res : SignTxResult)
    (h : WallyAuthenticator._sign_tx p st gs details wtx = some res) :
    res.signatures.length = details.signing_inputs.length ∧
    (∀ i u, details.signing_inputs[i]? = some u →
      ∃ sig sc, res.signatures[i]? = some sig ∧
        WallyAuthenticator.signOneInput p st gs details.use_ae_protocol wtx i u =
          some (sig, sc) ∧
        ∃ raw, sig = bytesHex (p.ec_sig_to_der raw ++ [sighashAllByte])) ∧
    (details.use_ae_protocol = true → ∃ cs, res.signer_commitments = some cs ∧
      cs.length = details.signing_inputs.length ∧
      ∀ i u, details.signing_inputs[i]? = some u →
        ∃ sig c, res.signatures[i]? = some sig ∧ cs[i]? = some c ∧
          WallyAuthenticator.signOneInput p st gs details.use_ae_protocol wtx i u =
            some (sig, some c)) := by
  unfold WallyAuthenticator._sign_tx at h
  simp only [Option.bind_eq_bind, Option.bind_eq_some] at h
  obtain ⟨⟨sigs, scs⟩, hloop, h⟩ := h
  simp only [Option.pure_def, Option.some_inj] at h
  subst h
  obtain ⟨hlen, hae, _, hidx, haeidx⟩ :=
    signLoop_spec p st gs details.use_ae_protocol wtx details.signing_inputs 0 sigs scs hloop
  refine ⟨hlen, fun i u hu => ?_, fun hA => ?_⟩
  · obtain ⟨sig, sc, hs, hso⟩ := hidx i u hu
    rw [Nat.zero_add] at hso
    exact ⟨sig, sc, hs, hso,
      (signOneInput_shape p st gs details.use_ae_protocol wtx i u sig sc hso).1⟩
  · refine ⟨scs, by simp [hA], hae hA, fun i u hu => ?_⟩
    obtain ⟨sig, c, hs, hc, hso⟩ := haeidx hA i u hu
    rw [Nat.zero_add] at hso
    exact ⟨sig, c, hs, hc, hso⟩

theorem sign_tx_result_shape_witness :
    (SignTxResult.mk [("01")] (some [("")])).signatures.length =
      wDetailsAE.signing_inputs.length ∧
    (∃ cs, (SignTxResult.mk [("01")] (some [("")])).signer_commitments = some cs ∧
      cs.length = wDetailsAE.signing_inputs.length ∧
      ∀ i u, wDetailsAE.signing_inputs[i]? = some u →
        ∃ sig c, (SignTxResult.mk [("01")] (some [("")])).signatures[i]? = some sig ∧
          cs[i]? = some c ∧
          WallyAuthenticator.signOneInput trivPrims wState
            (WallyAuthenticator._get_sighash trivPrims) wDetailsAE.use_ae_protocol
            wWallyTx i u = some (sig, some c)) :=
  ⟨(sign_tx_result_shape trivPrims wState (WallyAuthenticator._get_sighash trivPrims)
      wDetailsAE wWallyTx (SignTxResult.mk [("01")] (some [("")])) (by decide)).1,
   (sign_tx_result_shape trivPrims wState (WallyAuthenticator._get_sighash trivPrims)
      wDetailsAE wWallyTx (SignTxResult.mk [("01")] (some [("")])) (by decide)).2.2
     (by decide)⟩

/-! ## C6: presence of the signer-commitments list -/

/-- C6 counterexample: a transaction-signing call on the plain
(non-confidential) authenticator with the AE protocol enabled returns a
response that does contain a `signer_commitments` list, so the plain-network
response is not always `{signatures}` and commitments presence is not a
function of the network type alone. -/
theorem plain_response_contains_commitments_counterexample :
    (WallyAuthenticator.sign_tx trivPrims wState wDetailsAE).map
      (fun r => r.signer_commitments.isSome) = some true := by decide

/-- C6 (amended): the plain-network response contains the
`signer_commitments` list exactly when the caller set `use_ae_protocol`;
with AE disabled it is `{signatures}` only. -/
theorem plain_sign_tx_commitments_iff_ae (p : Prims) (st : AuthState)
    (details : SignTxDetails) (res : SignTxResult)
    (h : WallyAuthenticator.sign_tx p st details = some res) :
    res.signer_commitments.isSome = details.use_ae_protocol := by
  unfold WallyAuthenticator.sign_tx at h
  simp only [Option.bind_eq_bind, Option.bind_eq_some] at h
  obtain ⟨wtx, _, h⟩ := h
  unfold WallyAuthenticator._sign_tx at h
  simp only [Option.bind_eq_bind, Option.bind_eq_some] at h
  obtain ⟨⟨sigs, scs⟩, _, h⟩ := h
  simp only [Option.pure_def, Option.some_inj] at h
  subst h
  cases details.use_ae_protocol <;> simp

theorem plain_sign_tx_commitments_iff_ae_witness :
    (SignTxResult.mk [("01")] none).signer_commitments.isSome =
      wDetailsPlain.use_ae_protocol :=
  plain_sign_tx_commitments_iff_ae trivPrims wState wDetailsPlain
    (SignTxResult.mk [("01")] none) (by decide)

/-! ## Stage lemmas for the blinding pipeline -/

theorem assignWallyIndexFrom_getElem (outs : List TxOutput) :
    ∀ i j, (assignWallyIndexFrom i outs)[j]? =
      (outs[j]?).map fun o : TxOutput => { o with wally_index := some (i + j) } := by
  induction outs with
  | nil => intro i j; simp [assignWallyIndexFrom]
  | cons o rest ih =>
      intro i j
      cases j with
      | zero => simp [assignWallyIndexFrom]
      | succ j =>
          simp only [assignWallyIndexFrom, List.getElem?_cons_succ]
          rw [ih (i + 1) j]
          have harith : i + 1 + j = i + (j + 1) := by omega
          rw [harith]

theorem assignWallyIndexFrom_length (outs : List TxOutput) :
    ∀ i, (assignWallyIndexFrom i outs).length = outs.length := by
  induction outs with
  | nil => intro i; rfl
  | cons o rest ih => intro i; simp [assignWallyIndexFrom, ih]

theorem assignBlinders_length (rand : Nat → Bytes) :
    ∀ (outs : List TxOutput) (k : Nat),
      (assignBlinders rand k outs).length = outs.length := by
  intro outs
  induction outs with
  | nil => intro k; rfl
  | cons o rest ih =>
      intro k
      by_cases ho : o.is_fee = true <;> simp [assignBlinders, ho, ih]

theorem assignBlinders_elem (rand : Nat → Bytes) :
    ∀ (outs : List TxOutput) (k j : Nat) (o : TxOutput), outs[j]? = some o →
      (o.is_fee = true → (assignBlinders rand k outs)[j]? = some o) ∧
      (o.is_fee = false → ∃ m, (assignBlinders rand k outs)[j]? =
        some { o with assetblinder := some (bytesHex (rand (2 * m))),
                      amountblinder := some (bytesHex (rand (2 * m + 1))) }) := by
  intro outs
  induction outs with
  | nil => intro k j o h; simp at h
  | cons a rest ih =>
      intro k j o h
      cases j with
      | zero =>
          simp only [List.getElem?_cons_zero, Option.some_inj] at h
          subst h
          by_cases ha : a.is_fee = true
          · exact ⟨fun _ => by simp [assignBlinders, ha],
              fun hf => absurd ha (by simp [hf])⟩
          · have ha' : a.is_fee = false := by simpa using ha
            refine ⟨fun hf => absurd hf (by simp [ha']), fun _ => ⟨k, ?_⟩⟩
            simp [assignBlinders, ha']
      | succ j =>
          simp only [List.getElem?_cons_succ] at h
          by_cases ha : a.is_fee = true
          · have hrec := ih k j o h
            constructor
            · intro hf
              simpa [assignBlinders, ha] using hrec.1 hf
            · intro hf
              obtain ⟨m, hm⟩ := hrec.2 hf
              exact ⟨m, by simpa [assignBlinders, ha] using hm⟩
          · have ha' : a.is_fee = false := by simpa using ha
            have hrec := ih (k + 1) j o h
            constructor
            · intro hf
              simpa [assignBlinders, ha'] using hrec.1 hf
            · intro hf
              obtain ⟨m, hm⟩ := hrec.2 hf
              exact ⟨m, by simpa [assignBlinders, ha'] using hm⟩

theorem applyLastVbf_cons_of_ne_nil (v : String) (o : TxOutput)
    (l : List TxOutput) (h : l ≠ []) :
    applyLastVbf v (o :: l) = o :: applyLastVbf v l := by
  cases l with
  | nil => exact absurd rfl h
  | cons b t => simp [applyLastVbf]

theorem applyLastVbf_concat (v : String) :
    ∀ (front : List TxOutput) (lastO : TxOutput),
      applyLastVbf v (front ++ [lastO]) = front ++ [vbfUpd v lastO] := by
  intro front
  induction front with
  | nil => intro lastO; simp [applyLastVbf, vbfUpd]
  | cons a t ih =>
      intro lastO
      rw [List.cons_append, applyLastVbf_cons_of_ne_nil v a (t ++ [lastO]) (by simp),
        ih lastO, List.cons_append]

theorem setLastBlindedVbf_spec (v : String) :
    ∀ (outs outs' : List TxOutput), setLastBlindedVbf v outs = some outs' →
      outs'.length = outs.length ∧
      outs'.filter (fun o => !o.is_fee) =
        applyLastVbf v (outs.filter fun o => !o.is_fee) ∧
      ∀ (j : Nat) (o : TxOutput), outs[j]? = some o →
        outs'[j]? = some o ∨
        (o.is_fee = false ∧ outs'[j]? =
          some { o with amountblinder := some v }) := by
  intro outs
  induction outs with
  | nil => intro outs' h; simp [setLastBlindedVbf] at h
  | cons a rest ih =>
      intro outs' h
      unfold setLastBlindedVbf at h
      by_cases hany : (rest.any fun r => !r.is_fee) = true
      · rw [if_pos hany] at h
        cases hrec : setLastBlindedVbf v rest with
        | none => rw [hrec] at h; simp at h
        | some rest' =>
            rw [hrec] at h
            have h' : a :: rest' = outs' := by
              simpa using h
            subst h'
            obtain ⟨hlen, hfil, helem⟩ := ih rest' hrec
            have hne : rest.filter (fun o => !o.is_fee) ≠ [] := by
              obtain ⟨u, hu, hub⟩ := List.any_eq_true.mp hany
              intro hcon
              have hmem : u ∈ rest.filter (fun o => !o.is_fee) :=
                List.mem_filter.mpr ⟨hu, hub⟩
              simp [hcon] at hmem
            refine ⟨by simp [hlen], ?_, ?_⟩
            · by_cases ha : a.is_fee = true
              · simp only [List.filter_cons]
                rw [if_neg (by simp [ha]), if_neg (by simp [ha])]
                exact hfil
              · have ha' : a.is_fee = false := by simpa using ha
                simp only [List.filter_cons]
                rw [if_pos (by simp [ha']), if_pos (by simp [ha'])]
                rw [applyLastVbf_cons_of_ne_nil v a _ hne, hfil]
            · intro j o hj
              cases j with
              | zero =>
                  simp only [List.getElem?_cons_zero, Option.some_inj] at hj
                  subst hj
                  exact Or.inl (by simp)
              | succ j =>
                  simp only [List.getElem?_cons_succ] at hj ⊢
                  exact helem j o hj
      · rw [if_neg hany] at h
        by_cases ha : a.is_fee = true
        · rw [if_pos ha] at h; simp at h
        · have ha' : a.is_fee = false := by simpa using ha
          rw [if_neg (by simp [ha'])] at h
          have h' : { a with amountblinder := some v } :: rest = outs' := by
            simpa using h
          subst h'
          have hfilrest : rest.filter (fun o => !o.is_fee) = [] := by
            rw [List.filter_eq_nil_iff]
            intro u hu
            simp only [Bool.not_eq_true]
            by_contra hc
            exact hany (List.any_eq_true.mpr ⟨u, hu, by simpa using hc⟩)
          refine ⟨by simp, ?_, ?_⟩
          · simp only [List.filter_cons]
            rw [if_pos (by simp [ha']), if_pos (by simp [ha']), hfilrest]
            simp [applyLastVbf, vbfUpd]
          · intro j o hj
            cases j with
            | zero =>
                simp only [List.getElem?_cons_zero, Option.some_inj] at hj
                subst hj
                exact Or.inr ⟨ha', by simp⟩
            | succ j =>
                simp only [List.getElem?_cons_succ] at hj ⊢
                exact Or.inl hj

theorem commitUpd_of_fee (p : Prims) (o : TxOutput) (h : o.is_fee = true) :
    commitUpd p o = o := by
  unfold commitUpd
  rw [if_pos h]

theorem commitUpd_fields (p : Prims) (o : TxOutput) :
    (commitUpd p o).is_fee = o.is_fee ∧
    (commitUpd p o).satoshi = o.satoshi ∧
    (commitUpd p o).asset_id = o.asset_id ∧
    (commitUpd p o).wally_index = o.wally_index ∧
    (commitUpd p o).assetblinder = o.assetblinder ∧
    (commitUpd p o).amountblinder = o.amountblinder := by
  unfold commitUpd
  split
  · exact ⟨rfl, rfl, rfl, rfl, rfl, rfl⟩
  · exact ⟨rfl, rfl, rfl, rfl, rfl, rfl⟩

theorem commitUpd_commitments (p : Prims) (o : TxOutput) (h : o.is_fee = false) :
    (∃ x y, (commitUpd p o).asset_commitment =
      some (bytesHex (p.asset_generator_from_bytes x y))) ∧
    (∃ v b c, (commitUpd p o).value_commitment =
      some (bytesHex (p.asset_value_commitment v b c))) := by
  unfold commitUpd
  rw [if_neg (by simp [h])]
  exact ⟨⟨_, _, rfl⟩, ⟨_, _, _, rfl⟩⟩

theorem computeCommitments_fst (p : Prims) :
    ∀ (outs : List TxOutput) (tx : WallyTx) (r : List TxOutput × WallyTx),
      computeCommitments p outs tx = some r →
      r.1 = outs.map (commitUpd p) := by
  intro outs
  induction outs with
  | nil =>
      intro tx r h
      simp only [computeCommitments, Option.some_inj] at h
      subst h
      rfl
  | cons o rest ih =>
      intro tx r h
      unfold computeCommitments at h
      by_cases ho : o.is_fee = true
      · rw [if_pos ho] at h
        cases hrec : computeCommitments p rest tx with
        | none => rw [hrec] at h; simp at h
        | some r' =>
            rw [hrec] at h
            have h' : (o :: r'.1, r'.2) = r := by simpa using h
            subst h'
            simp only [List.map_cons, commitUpd_of_fee p o ho]
            rw [ih tx r' hrec]
      · rw [if_neg ho] at h
        have ho' : o.is_fee = false := by simpa using ho
        simp only [Option.bind_eq_bind, Option.bind_eq_some, Option.pure_def,
          Option.some_inj] at h
        obtain ⟨aid, haid, h⟩ := h
        obtain ⟨abf, habf, h⟩ := h
        obtain ⟨vbf, hvbf, h⟩ := h
        obtain ⟨wi, hwi, h⟩ := h
        obtain ⟨tx2, htx2, h⟩ := h
        obtain ⟨tx3, htx3, h⟩ := h
        obtain ⟨r', hr', h⟩ := h
        subst h
        simp only [List.map_cons]
        rw [ih tx3 r' hr']
        congr 1
        unfold commitUpd
        rw [if_neg (by simp [ho'])]
        simp [haid, habf, hvbf]

theorem computeCommitments_length (p : Prims) (outs : List TxOutput)
    (tx : WallyTx) (r : List TxOutput × WallyTx)
    (h : computeCommitments p outs tx = some r) :
    r.1.length = outs.length := by
  rw [computeCommitments_fst p outs tx r h]
  simp

/-- Inversion of the `_get_blinding_factors` do-chain: on success, every
stage succeeded, and the returned record and outputs are built from the
stage results. -/
theorem gbf_inversion (p : Prims) (rand : Nat → Bytes) (txd : TxDetails)
    (wtx : WallyTx) (res : BlindingResult) (outs : List TxOutput) (tx2 : WallyTx)
    (h : WallyAuthenticatorLiquid._get_blinding_factors p rand txd wtx =
      some (res, outs, tx2)) :
    ∃ (abfChunks vbfChunks : List Bytes) (final_vbf : Bytes)
      (outs3 : List TxOutput),
      ((chosenUtxos txd).map UsedUtxo.toEndpoint ++
          (((assignBlinders rand 0 (assignWallyIndex txd.transaction_outputs)).filter
            fun o => !o.is_fee).map TxOutput.toEndpoint)).mapM endpointAbf =
        some abfChunks ∧
      ((chosenUtxos txd).map UsedUtxo.toEndpoint ++
          (((assignBlinders rand 0 (assignWallyIndex txd.transaction_outputs)).filter
            fun o => !o.is_fee).map TxOutput.toEndpoint)).dropLast.mapM endpointVbf =
        some vbfChunks ∧
      asset_final_vbf
        (((chosenUtxos txd).map UsedUtxo.toEndpoint ++
          (((assignBlinders rand 0 (assignWallyIndex txd.transaction_outputs)).filter
            fun o => !o.is_fee).map TxOutput.toEndpoint)).map (·.satoshi))
        (chosenUtxos txd).length abfChunks.flatten vbfChunks.flatten =
        some final_vbf ∧
      setLastBlindedVbf (bytesHex final_vbf.reverse)
        (assignBlinders rand 0 (assignWallyIndex txd.transaction_outputs)) =
        some outs3 ∧
      computeCommitments p outs3 wtx = some (outs, tx2) ∧
      res = { assetblinders := outs.map fun o => o.assetblinder.getD ""
              amountblinders := outs.map fun o => o.amountblinder.getD ""
              asset_commitments := outs.map fun o => o.asset_commitment.getD ""
              value_commitments := outs.map fun o => o.value_commitment.getD "" } := by
  unfold WallyAuthenticatorLiquid._get_blinding_factors at h
  dsimp only at h
  simp only [Option.bind_eq_bind, Option.bind_eq_some, Option.pure_def,
    Option.some_inj] at h
  obtain ⟨abfChunks, habf, h⟩ := h
  obtain ⟨vbfChunks, hvbf, h⟩ := h
  obtain ⟨final_vbf, hfin, h⟩ := h
  obtain ⟨outs3, hlast, h⟩ := h
  obtain ⟨⟨os, tx'⟩, hcc, h⟩ := h
  simp only [Prod.mk.injEq] at h
  obtain ⟨hres, houts, htx⟩ := h
  subst houts htx
  exact ⟨abfChunks, vbfChunks, final_vbf, outs3,
    habf, hvbf, hfin, hlast, hcc, hres.symm⟩

theorem asset_final_vbf_shape (values : List Nat) (num_inputs : Nat)
    (abfs vbfs : Bytes) (fb : Bytes)
    (h : asset_final_vbf values num_inputs abfs vbfs = some fb) :
    ∃ n, fb = scalarToBytes n := by
  unfold asset_final_vbf at h
  dsimp only at h
  split at h
  · split at h
    next => exact ⟨_, (Option.some_inj.mp h).symm⟩
    next => exact absurd h (by simp)
  · exact absurd h (by simp)

theorem assignWallyIndex_elem (outs : List TxOutput) (i : Nat) (o : TxOutput)
    (h : outs[i]? = some o) :
    ∃ o1 : TxOutput, (assignWallyIndex outs)[i]? = some o1 ∧
      o1.is_fee = o.is_fee ∧ o1.satoshi = o.satoshi ∧ o1.asset_id = o.asset_id ∧
      o1.wally_index = some i ∧ o1.assetblinder = o.assetblinder ∧
      o1.amountblinder = o.amountblinder ∧
      o1.asset_commitment = o.asset_commitment ∧
      o1.value_commitment = o.value_commitment := by
  refine ⟨{ o with wally_index := some i }, ?_, rfl, rfl, rfl, rfl, rfl, rfl, rfl, rfl⟩
  rw [assignWallyIndex, assignWallyIndexFrom_getElem, h, Option.map_some']
  simp

theorem assignBlinders_elem_nonfee (rand : Nat → Bytes) (outs : List TxOutput)
    (k j : Nat) (o : TxOutput) (h : outs[j]? = some o) (hf : o.is_fee = false) :
    ∃ (o2 : TxOutput) (m : Nat), (assignBlinders rand k outs)[j]? = some o2 ∧
      o2.is_fee = o.is_fee ∧ o2.satoshi = o.satoshi ∧ o2.asset_id = o.asset_id ∧
      o2.wally_index = o.wally_index ∧
      o2.asset_commitment = o.asset_commitment ∧
      o2.value_commitment = o.value_commitment ∧
      o2.assetblinder = some (bytesHex (rand (2 * m))) ∧
      o2.amountblinder = some (bytesHex (rand (2 * m + 1))) := by
  obtain ⟨m, hm⟩ := (assignBlinders_elem rand outs k j o h).2 hf
  exact ⟨_, m, hm, rfl, rfl, rfl, rfl, rfl, rfl, rfl, rfl⟩

theorem setLastBlindedVbf_elem (v : String) (outs outs' : List TxOutput)
    (h : setLastBlindedVbf v outs = some outs') (j : Nat) (o : TxOutput)
    (hj : outs[j]? = some o) :
    ∃ o3 : TxOutput, outs'[j]? = some o3 ∧
      o3.is_fee = o.is_fee ∧ o3.satoshi = o.satoshi ∧ o3.asset_id = o.asset_id ∧
      o3.wally_index = o.wally_index ∧ o3.assetblinder = o.assetblinder ∧
      o3.asset_commitment = o.asset_commitment ∧
      o3.value_commitment = o.value_commitment ∧
      (o3.amountblinder = o.amountblinder ∨
        (o.is_fee = false ∧ o3.amountblinder = some v)) := by
  rcases (setLastBlindedVbf_spec v outs outs' h).2.2 j o hj with h3 | ⟨hof, h3⟩
  · exact ⟨o, h3, rfl, rfl, rfl, rfl, rfl, rfl, rfl, Or.inl rfl⟩
  · exact ⟨_, h3, rfl, rfl, rfl, rfl, rfl, rfl, rfl, Or.inr ⟨hof, rfl⟩⟩

/-- Elementwise description of what the blinder does to the
`transaction_outputs` records: every record gains its original index as
`wally_index`; fee records are otherwise untouched; non-fee records gain a
fresh random asset blinder, an amount blinder (a fresh random draw, or for
one record the computed 32-byte final vbf), and the two commitments. -/
theorem gbf_elem (p : Prims) (rand : Nat → Bytes) (txd : TxDetails)
    (wtx : WallyTx) (res : BlindingResult) (outs : List TxOutput) (tx2 : WallyTx)
    (h : WallyAuthenticatorLiquid._get_blinding_factors p rand txd wtx =
      some (res, outs, tx2)) :
    outs.length = txd.transaction_outputs.length ∧
    ∀ (i : Nat) (o : TxOutput), txd.transaction_outputs[i]? = some o →
      ∃ o' : TxOutput, outs[i]? = some o' ∧
        o'.wally_index = some i ∧ o'.is_fee = o.is_fee ∧
        o'.satoshi = o.satoshi ∧ o'.asset_id = o.asset_id ∧
        (o.is_fee = true →
          o'.assetblinder = o.assetblinder ∧
          o'.amountblinder = o.amountblinder ∧
          o'.asset_commitment = o.asset_commitment ∧
          o'.value_commitment = o.value_commitment) ∧
        (o.is_fee = false →
          (∃ m, o'.assetblinder = some (bytesHex (rand (2 * m)))) ∧
          ((∃ m, o'.amountblinder = some (bytesHex (rand (2 * m + 1)))) ∨
            (∃ bs : Bytes, bs.length = 32 ∧
              o'.amountblinder = some (bytesHex bs))) ∧
          (∃ x y, o'.asset_commitment =
            some (bytesHex (p.asset_generator_from_bytes x y))) ∧
          (∃ x y z, o'.value_commitment =
            some (bytesHex (p.asset_value_commitment x y z)))) := by
  obtain ⟨abfChunks, vbfChunks, final_vbf, outs3, habf, hvbf, hfin, hlast, hcc, hres⟩ :=
    gbf_inversion p rand txd wtx res outs tx2 h
  have houts : outs = outs3.map (commitUpd p) :=
    computeCommitments_fst p outs3 wtx (outs, tx2) hcc
  have hlen3 := (setLastBlindedVbf_spec _ _ _ hlast).1
  constructor
  · rw [houts, List.length_map, hlen3, assignBlinders_length,
      assignWallyIndex, assignWallyIndexFrom_length]
  · intro i o hi
    obtain ⟨o1, h1, e1fee, e1sat, e1aid, e1wi, e1ab, e1vb, e1ac, e1vc⟩ :=
      assignWallyIndex_elem txd.transaction_outputs i o hi
    by_cases hfee : o.is_fee = true
    · have h2 : (assignBlinders rand 0 (assignWallyIndex txd.transaction_outputs))[i]? =
          some o1 :=
        (assignBlinders_elem rand _ 0 i o1 h1).1 (by rw [e1fee, hfee])
      obtain ⟨o3, h3, e3fee, e3sat, e3aid, e3wi, e3ab, e3ac, e3vc, e3vb⟩ :=
        setLastBlindedVbf_elem _ _ _ hlast i o1 h2
      have h3vb : o3.amountblinder = o1.amountblinder := by
        rcases e3vb with hv | ⟨hof, _⟩
        · exact hv
        · rw [e1fee, hfee] at hof
          exact absurd hof (by simp)
      refine ⟨commitUpd p o3, ?_, ?_⟩
      · rw [houts, List.getElem?_map, h3, Option.map_some']
      · have hfee3 : o3.is_fee = true := by rw [e3fee, e1fee, hfee]
        rw [commitUpd_of_fee p o3 hfee3]
        refine ⟨by rw [e3wi, e1wi], by rw [e3fee, e1fee], by rw [e3sat, e1sat],
          by rw [e3aid, e1aid], fun _ => ?_, fun hc => absurd hfee (by simp [hc])⟩
        exact ⟨by rw [e3ab, e1ab], by rw [h3vb, e1vb],
          by rw [e3ac, e1ac], by rw [e3vc, e1vc]⟩
    · have hfee' : o.is_fee = false := by simpa using hfee
      obtain ⟨o2, m, h2, e2fee, e2sat, e2aid, e2wi, e2ac, e2vc, e2ab, e2vb⟩ :=
        assignBlinders_elem_nonfee rand _ 0 i o1 h1 (by rw [e1fee, hfee'])
      obtain ⟨o3, h3, e3fee, e3sat, e3aid, e3wi, e3ab, e3ac, e3vc, e3vb⟩ :=
        setLastBlindedVbf_elem _ _ _ hlast i o2 h2
      have hfee3 : o3.is_fee = false := by rw [e3fee, e2fee, e1fee, hfee']
      obtain ⟨hf1, hf2, hf3, hf4, hf5, hf6⟩ := commitUpd_fields p o3
      obtain ⟨hc1, hc2⟩ := commitUpd_commitments p o3 hfee3
      refine ⟨commitUpd p o3, ?_, ?_⟩
      · rw [houts, List.getElem?_map, h3, Option.map_some']
      · refine ⟨by rw [hf4, e3wi, e2wi, e1wi], by rw [hf1, hfee3, hfee'],
          by rw [hf2, e3sat, e2sat, e1sat], by rw [hf3, e3aid, e2aid, e1aid],
          fun hc => absurd hc hfee, fun _ => ?_⟩
        refine ⟨⟨m, by rw [hf5, e3ab, e2ab]⟩, ?_, hc1, hc2⟩
        rcases e3vb with hv | ⟨_, hv⟩
        · exact Or.inl ⟨m, by rw [hf6, hv, e2vb]⟩
        · obtain ⟨n, hn⟩ := asset_final_vbf_shape _ _ _ _ _ hfin
          refine Or.inr ⟨final_vbf.reverse, ?_, by rw [hf6, hv]⟩
          rw [hn, List.length_reverse, scalarToBytes_length]

/-! ## C10: in-place mutation of the transaction_outputs records -/

/-- C10: on success the blinder has mutated the caller's
`transaction_outputs` records in place: every record gained `wally_index = i`
(its original position); every non-fee record additionally gained
`assetblinder`, `amountblinder`, `asset_commitment` and `value_commitment`;
all other fields — in particular every field of the fee output other than
`wally_index` — are unchanged. -/
theorem blinding_mutates_output_records (p : Prims) (rand : Nat → Bytes)
    (txd : TxDetails) (wtx : WallyTx) (res : BlindingResult)
    (outs : List TxOutput) (tx2 : WallyTx)
    (h : WallyAuthenticatorLiquid._get_blinding_factors p rand txd wtx =
      some (res, outs, tx2)) :
    outs.length = txd.transaction_outputs.length ∧
    ∀ (i : Nat) (o : TxOutput), txd.transaction_outputs[i]? = some o →
      ∃ o' : TxOutput, outs[i]? = some o' ∧
        o'.wally_index = some i ∧ o'.is_fee = o.is_fee ∧
        o'.satoshi = o.satoshi ∧ o'.asset_id = o.asset_id ∧
        (o.is_fee = true →
          o'.assetblinder = o.assetblinder ∧
          o'.amountblinder = o.amountblinder ∧
          o'.asset_commitment = o.asset_commitment ∧
          o'.value_commitment = o.value_commitment) ∧
        (o.is_fee = false →
          o'.assetblinder.isSome ∧ o'.amountblinder.isSome ∧
          o'.asset_commitment.isSome ∧ o'.value_commitment.isSome) := by
  obtain ⟨hlen, helem⟩ := gbf_elem p rand txd wtx res outs tx2 h
  refine ⟨hlen, fun i o hi => ?_⟩
  obtain ⟨o', ho', hwi, hife, hsat, haid, hfeeCase, hnfCase⟩ := helem i o hi
  refine ⟨o', ho', hwi, hife, hsat, haid, hfeeCase, fun hnf => ?_⟩
  obtain ⟨⟨m1, hab⟩, hvb, ⟨x, y, hac⟩, ⟨a, b, c, hvc⟩⟩ := hnfCase hnf
  refine ⟨by rw [hab]; rfl, ?_, by rw [hac]; rfl, by rw [hvc]; rfl⟩
  rcases hvb with ⟨m2, hvb⟩ | ⟨bs, _, hvb⟩ <;> rw [hvb] <;> rfl

theorem blinding_mutates_output_records_witness :
    ∃ (res : BlindingResult) (outs : List TxOutput) (tx2 : WallyTx),
      WallyAuthenticatorLiquid._get_blinding_factors trivPrims wRand
        wTxDetails wWallyTx = some (res, outs, tx2) ∧
      outs.length = wTxDetails.transaction_outputs.length := by
  obtain ⟨⟨res, outs, tx2⟩, heq⟩ :
      ∃ r, WallyAuthenticatorLiquid._get_blinding_factors trivPrims wRand
        wTxDetails wWallyTx = some r :=
    Option.isSome_iff_exists.mp (by decide)
  exact ⟨res, outs, tx2, heq,
    (blinding_mutates_output_records trivPrims wRand wTxDetails wWallyTx
      res outs tx2 heq).1⟩

/-! ## C4: the four parallel blinding lists -/

/-- C4: on success the blinding result holds four lists, each exactly as
long as `transaction_outputs` and aligned with it by original order; every
fee-output slot is the empty string and every non-fee-output slot is a
non-empty hex string. -/
theorem blinding_result_lists (p : Prims) (rand : Nat → Bytes)
    (txd : TxDetails) (wtx : WallyTx) (res : BlindingResult)
    (outs : List TxOutput) (tx2 : WallyTx)
    (hrand : ∀ j, (rand j).length = 32)
    (hgen : ∀ a b, (p.asset_generator_from_bytes a b).length = 33)
    (hvalc : ∀ x y z, (p.asset_value_commitment x y z).length = 33)
    (hfee : ∀ o ∈ txd.transaction_outputs, o.is_fee = true →
      o.assetblinder = none ∧ o.amountblinder = none ∧
      o.asset_commitment = none ∧ o.value_commitment = none)
    (h : WallyAuthenticatorLiquid._get_blinding_factors p rand txd wtx =
      some (res, outs, tx2)) :
    res.assetblinders.length = txd.transaction_outputs.length ∧
    res.amountblinders.length = txd.transaction_outputs.length ∧
    res.asset_commitments.length = txd.transaction_outputs.length ∧
    res.value_commitments.length = txd.transaction_outputs.length ∧
    ∀ (i : Nat) (o : TxOutput), txd.transaction_outputs[i]? = some o →
      (o.is_fee = true →
        res.assetblinders[i]? = some ("") ∧
        res.amountblinders[i]? = some ("") ∧
        res.asset_commitments[i]? = some ("") ∧
        res.value_commitments[i]? = some ("")) ∧
      (o.is_fee = false →
        (∃ s, res.assetblinders[i]? = some s ∧ s ≠ "" ∧
          (bytesFromHex s).isSome) ∧
        (∃ s, res.amountblinders[i]? = some s ∧ s ≠ "" ∧
          (bytesFromHex s).isSome) ∧
        (∃ s, res.asset_commitments[i]? = some s ∧ s ≠ "" ∧
          (bytesFromHex s).isSome) ∧
        (∃ s, res.value_commitments[i]? = some s ∧ s ≠ "" ∧
          (bytesFromHex s).isSome)) := by
  obtain ⟨_, _, _, _, _, _, _, _, _, hres⟩ :=
    gbf_inversion p rand txd wtx res outs tx2 h
  obtain ⟨hlen, helem⟩ := gbf_elem p rand txd wtx res outs tx2 h
  subst hres
  refine ⟨by simp [hlen], by simp [hlen], by simp [hlen], by simp [hlen],
    fun i o hi => ?_⟩
  have hmem : o ∈ txd.transaction_outputs := by
    obtain ⟨hlt, hget⟩ := List.getElem?_eq_some.mp hi
    exact hget ▸ List.getElem_mem hlt
  obtain ⟨o', ho', _, _, _, _, hfeeCase, hnfCase⟩ := helem i o hi
  constructor
  · intro hf
    obtain ⟨hab, hvb, hac, hvc⟩ := hfeeCase hf
    obtain ⟨hn1, hn2, hn3, hn4⟩ := hfee o hmem hf
    simp only [List.getElem?_map, ho', Option.map_some']
    rw [hab, hvb, hac, hvc, hn1, hn2, hn3, hn4]
    exact ⟨rfl, rfl, rfl, rfl⟩
  · intro hnf
    obtain ⟨⟨m1, hab⟩, hvb, ⟨x, y, hac⟩, ⟨a, b, c, hvc⟩⟩ := hnfCase hnf
    simp only [List.getElem?_map, ho', Option.map_some']
    have hexOk : ∀ bs : Bytes, bs ≠ [] →
        bytesHex bs ≠ "" ∧ (bytesFromHex (bytesHex bs)).isSome :=
      fun bs hbs => ⟨bytesHex_ne_empty hbs, by rw [bytesFromHex_bytesHex]; rfl⟩
    have hlen32 : ∀ j, rand j ≠ [] := fun j => by
      intro hcon
      have := hrand j
      rw [hcon] at this
      simp at this
    refine ⟨⟨bytesHex (rand (2 * m1)), by rw [hab]; rfl,
        hexOk _ (hlen32 (2 * m1))⟩, ?_, ?_, ?_⟩
    · rcases hvb with ⟨m2, hvb⟩ | ⟨bs, hbs32, hvb⟩
      · exact ⟨bytesHex (rand (2 * m2 + 1)), by rw [hvb]; rfl,
          hexOk _ (hlen32 (2 * m2 + 1))⟩
      · refine ⟨bytesHex bs, by rw [hvb]; rfl, hexOk _ ?_⟩
        intro hcon
        rw [hcon] at hbs32
        simp at hbs32
    · refine ⟨bytesHex (p.asset_generator_from_bytes x y), by rw [hac]; rfl,
        hexOk _ ?_⟩
      intro hcon
      have := hgen x y
      rw [hcon] at this
      simp at this
    · refine ⟨bytesHex (p.asset_value_commitment a b c), by rw [hvc]; rfl,
        hexOk _ ?_⟩
      intro hcon
      have := hvalc a b c
      rw [hcon] at this
      simp at this

theorem blinding_result_lists_witness :
    ∃ (res : BlindingResult) (outs : List TxOutput) (tx2 : WallyTx),
      WallyAuthenticatorLiquid._get_blinding_factors trivPrims wRand
        wTxDetails wWallyTx = some (res, outs, tx2) ∧
      res.assetblinders.length = wTxDetails.transaction_outputs.length := by
  obtain ⟨⟨res, outs, tx2⟩, heq⟩ :
      ∃ r, WallyAuthenticatorLiquid._get_blinding_factors trivPrims wRand
        wTxDetails wWallyTx = some r :=
    Option.isSome_iff_exists.mp (by decide)
  refine ⟨res, outs, tx2, heq,
    (blinding_result_lists trivPrims wRand wTxDetails wWallyTx res outs tx2
      (fun j => rfl) (fun a b => by simp [trivPrims])
      (fun x y z => by simp [trivPrims]) (by decide) heq).1⟩

/-! ## Helper lemmas towards the balance equation (C1) -/

theorem filter_assignBlinders (rand : Nat → Bytes) :
    ∀ (outs : List TxOutput) (k : Nat),
      (assignBlinders rand k outs).filter (fun o => !o.is_fee) =
        freshBlinded rand k (outs.filter fun o => !o.is_fee) := by
  intro outs
  induction outs with
  | nil => intro k; rfl
  | cons o rest ih =>
      intro k
      by_cases ho : o.is_fee = true
      · rw [assignBlinders, if_pos ho]
        rw [List.filter_cons_of_neg (by simp [ho]),
          List.filter_cons_of_neg (by simp [ho])]
        exact ih k
      · have ho' : o.is_fee = false := by simpa using ho
        rw [assignBlinders, if_neg ho]
        rw [List.filter_cons_of_pos (by simp [ho']),
          List.filter_cons_of_pos (by simp [ho'])]
        rw [freshBlinded]
        exact congrArg _ (ih (k + 1))

theorem freshBlinded_length (rand : Nat → Bytes) :
    ∀ (l : List TxOutput) (k : Nat), (freshBlinded rand k l).length = l.length := by
  intro l
  induction l with
  | nil => intro k; rfl
  | cons o rest ih => intro k; simp [freshBlinded, ih]

theorem freshBlinded_getElem (rand : Nat → Bytes) :
    ∀ (l : List TxOutput) (k j : Nat),
      (freshBlinded rand k l)[j]? = (l[j]?).map (freshUpd rand (k + j)) := by
  intro l
  induction l with
  | nil => intro k j; simp [freshBlinded]
  | cons o rest ih =>
      intro k j
      cases j with
      | zero => simp [freshBlinded, freshUpd]
      | succ j =>
          simp only [freshBlinded, List.getElem?_cons_succ]
          rw [ih (k + 1) j]
          have harith : k + 1 + j = k + (j + 1) := by omega
          rw [harith]

theorem freshBlinded_concat (rand : Nat → Bytes) :
    ∀ (front : List TxOutput) (k : Nat) (lastO : TxOutput),
      freshBlinded rand k (front ++ [lastO]) =
        freshBlinded rand k front ++
          [freshUpd rand (k + front.length) lastO] := by
  intro front
  induction front with
  | nil => intro k lastO; simp [freshBlinded]
  | cons o rest ih =>
      intro k lastO
      simp only [List.cons_append, freshBlinded, List.length_cons, List.append_eq]
      rw [ih (k + 1) lastO]
      have harith : k + 1 + rest.length = k + (rest.length + 1) := by omega
      rw [harith]

theorem freshBlinded_mem (rand : Nat → Bytes) :
    ∀ (l : List TxOutput) (k : Nat) (o' : TxOutput), o' ∈ freshBlinded rand k l →
      ∃ m, o'.assetblinder = some (bytesHex (rand (2 * m))) ∧
        o'.amountblinder = some (bytesHex (rand (2 * m + 1))) := by
  intro l
  induction l with
  | nil => intro k o' h; simp [freshBlinded] at h
  | cons o rest ih =>
      intro k o' h
      rw [freshBlinded] at h
      rcases List.mem_cons.mp h with rfl | hmem
      · exact ⟨k, rfl, rfl⟩
      · exact ih (k + 1) o' hmem

theorem mapM_endpointAbf (l : List Endpoint)
    (hl : ∀ e ∈ l, (bytesFromHex e.assetblinder).isSome = true) :
    l.mapM endpointAbf = some (l.map abfPiece) := by
  induction l with
  | nil => rfl
  | cons e rest ih =>
      obtain ⟨bs, hbs⟩ :=
        Option.isSome_iff_exists.mp (hl e (List.mem_cons_self e rest))
      have hrest := ih fun x hx => hl x (List.mem_cons_of_mem e hx)
      rw [List.mapM_cons, hrest]
      simp [endpointAbf, abfPiece, hbs]

theorem mapM_endpointVbf (l : List Endpoint)
    (hl : ∀ e ∈ l, (bytesFromHex e.amountblinder).isSome = true) :
    l.mapM endpointVbf = some (l.map vbfPiece) := by
  induction l with
  | nil => rfl
  | cons e rest ih =>
      obtain ⟨bs, hbs⟩ :=
        Option.isSome_iff_exists.mp (hl e (List.mem_cons_self e rest))
      have hrest := ih fun x hx => hl x (List.mem_cons_of_mem e hx)
      rw [List.mapM_cons, hrest]
      simp [endpointVbf, vbfPiece, hbs]

theorem chunkScalars_flatten :
    ∀ (pieces : List Bytes), (∀ c ∈ pieces, c.length = 32) →
      chunkScalars pieces.length pieces.flatten = some pieces := by
  intro pieces
  induction pieces with
  | nil => intro _; rfl
  | cons c rest ih =>
      intro hlen
      have hc32 : c.length = 32 := hlen c (List.mem_cons_self c rest)
      have ht : (c ++ rest.flatten).take 32 = c := by
        rw [← hc32, List.take_left]
      have hd : (c ++ rest.flatten).drop 32 = rest.flatten := by
        rw [← hc32, List.drop_left]
      simp only [List.length_cons, List.flatten_cons, chunkScalars, ht, hc32,
        if_true, hd]
      rw [ih fun x hx => hlen x (List.mem_cons_of_mem c hx)]
      rfl

theorem zip_concat_left {α β : Type} (xs : List α) (x : α) (ys : List β)
    (h : xs.length = ys.length) : (xs ++ [x]).zip ys = xs.zip ys := by
  have happ := @List.zip_append α β xs [x] ys [] h
  simpa using happ

theorem toEndpoint_commitUpd (p : Prims) (o : TxOutput) :
    (commitUpd p o).toEndpoint = o.toEndpoint := by
  obtain ⟨_, h2, _, _, h5, h6⟩ := commitUpd_fields p o
  unfold TxOutput.toEndpoint
  rw [h2, h5, h6]

theorem filter_map_commitUpd (p : Prims) (l : List TxOutput) :
    (l.map (commitUpd p)).filter (fun o => !o.is_fee) =
      (l.filter fun o => !o.is_fee).map (commitUpd p) := by
  rw [List.filter_map]
  have hpred : List.filter ((fun o => !o.is_fee) ∘ commitUpd p) l =
      List.filter (fun o => !o.is_fee) l :=
    List.filter_congr fun o _ => by
      rw [Function.comp_apply, (commitUpd_fields p o).1]
  rw [hpred]

/-- On success, `asset_final_vbf` applied to per-endpoint 32-byte scalars
returns exactly the solution of the balancing equation. -/
theorem asset_final_vbf_solves (values : List Nat) (u : Nat)
    (abfL vbfL : List Bytes) (fb : Bytes)
    (hab : ∀ c ∈ abfL, c.length = 32) (hvb : ∀ c ∈ vbfL, c.length = 32)
    (hlab : abfL.length = values.length)
    (hlvb : vbfL.length = values.length - 1)
    (h : asset_final_vbf values u abfL.flatten vbfL.flatten = some fb) :
    u < values.length ∧
    fb = scalarToBytes
      ((((((values.zip abfL).zip vbfL).map fun q =>
            (q.1.1 : Int) * bytesToScalar q.1.2 + bytesToScalar q.2).take u).sum -
        ((((values.zip abfL).zip vbfL).map fun q =>
            (q.1.1 : Int) * bytesToScalar q.1.2 + bytesToScalar q.2).drop u).sum -
        (values.getLastD 0 : Int) * bytesToScalar (abfL.getLastD [])) %
        (secpOrder : Int)).toNat := by
  have hch1 : chunkScalars values.length abfL.flatten = some abfL := by
    rw [← hlab]
    exact chunkScalars_flatten abfL hab
  have hch2 : chunkScalars (values.length - 1) vbfL.flatten = some vbfL := by
    rw [← hlvb]
    exact chunkScalars_flatten vbfL hvb
  unfold asset_final_vbf at h
  dsimp only at h
  split at h
  next hu =>
    rw [hch1, hch2] at h
    dsimp only at h
    exact ⟨hu, (Option.some_inj.mp h).symm⟩
  next hu => exact absurd h (by simp)

theorem hexScalarOk_spec (s : String) (h : hexScalarOk s) :
    ∃ bs : Bytes, bytesFromHex s = some bs ∧ bs.length = 32 := by
  unfold hexScalarOk at h
  cases hb : bytesFromHex s with
  | none => rw [hb] at h; simp at h
  | some bs =>
      rw [hb] at h
      exact ⟨bs, rfl, by simpa using h⟩

theorem outputContribution_commitUpd (p : Prims) (o : TxOutput) :
    outputContribution (commitUpd p o) = outputContribution o := by
  unfold outputContribution
  rw [toEndpoint_commitUpd]

/-- The sums inside the `asset_final_vbf` solution, for an endpoint list
decomposed as inputs ++ front outputs ++ [last output]: the take is the
input contributions, the drop is the front-output contributions, and the
last term is the last output's value-weighted asset-blinder term. -/
theorem balance_sums (U front : List Endpoint) (lastE : Endpoint)
    (u : Nat) (hu : u = U.length) :
    ((((((U ++ front ++ [lastE]).map (·.satoshi)).zip
          ((U ++ front ++ [lastE]).map abfPiece)).zip
          (((U ++ front ++ [lastE]).dropLast).map vbfPiece)).map fun q =>
            (q.1.1 : Int) * bytesToScalar q.1.2 + bytesToScalar q.2).take
        u).sum = (U.map Endpoint.contribution).sum ∧
    ((((((U ++ front ++ [lastE]).map (·.satoshi)).zip
          ((U ++ front ++ [lastE]).map abfPiece)).zip
          (((U ++ front ++ [lastE]).dropLast).map vbfPiece)).map fun q =>
            (q.1.1 : Int) * bytesToScalar q.1.2 + bytesToScalar q.2).drop
        u).sum = (front.map Endpoint.contribution).sum ∧
    ((((U ++ front ++ [lastE]).map (·.satoshi) : List Nat).getLastD 0 : Int) *
        bytesToScalar (((U ++ front ++ [lastE]).map abfPiece).getLastD []) =
      (lastE.satoshi : Int) * blinderScalar lastE.assetblinder) := by
  have hdrop : ((U ++ front ++ [lastE]).dropLast) = U ++ front :=
    List.dropLast_concat
  have hzip1 : (((U ++ front ++ [lastE]).map (·.satoshi)).zip
      ((U ++ front ++ [lastE]).map abfPiece)) =
      (U ++ front ++ [lastE]).map fun e => (e.satoshi, abfPiece e) :=
    List.zip_map' _ _ _
  have hzip2 : (((U ++ front ++ [lastE]).map fun e =>
        (e.satoshi, abfPiece e)).zip ((U ++ front).map vbfPiece)) =
      (U ++ front).map fun e => ((e.satoshi, abfPiece e), vbfPiece e) := by
    rw [List.map_append, List.map_cons, List.map_nil]
    rw [zip_concat_left _ _ _ (by simp)]
    exact List.zip_map' _ _ _
  have hcs : ((U ++ front).map fun e =>
        ((e.satoshi, abfPiece e), vbfPiece e)).map (fun q =>
          (q.1.1 : Int) * bytesToScalar q.1.2 + bytesToScalar q.2) =
      (U ++ front).map Endpoint.contribution := by
    rw [List.map_map]
    rfl
  have hlastd : (((U ++ front ++ [lastE]).map (·.satoshi)).getLastD 0) =
      lastE.satoshi := by
    rw [List.map_append, List.map_cons, List.map_nil, List.getLastD_concat]
  have hlasta : (((U ++ front ++ [lastE]).map abfPiece).getLastD []) =
      abfPiece lastE := by
    rw [List.map_append, List.map_cons, List.map_nil, List.getLastD_concat]
  rw [hdrop, hzip1, hzip2, hcs, hlastd, hlasta, List.map_append]
  refine ⟨?_, ?_, rfl⟩
  · rw [List.take_left' (by simp [hu])]
  · rw [List.drop_left' (by simp [hu])]

/-! ## C1: the blinding balance equation -/

/-- C1: for every confidential signing call with at least one non-fee
output, every blinded output's asset-blinding factor is its fresh random
draw (`rand (2k)` for the `k`-th blinded output), every blinded output but
the last gets the fresh random draw `rand (2k+1)` as value-blinding
factor, and the last blinded output's value-blinding factor is computed by
the balancing function — called with the spent inputs as the positive side
and their count as the input count — so that the signed sum of the
value-blinding contributions `value * abf + vbf` over all endpoints (spent
inputs positive, non-fee outputs negative) is zero modulo the secp256k1
group order. -/
theorem blinding_balance (p : Prims) (rand : Nat → Bytes) (txd : TxDetails)
    (wtx : WallyTx) (res : BlindingResult) (outs : List TxOutput) (tx2 : WallyTx)
    (hrand : ∀ j, (rand j).length = 32)
    (hutxo : ∀ u ∈ chosenUtxos txd,
      hexScalarOk u.assetblinder ∧ hexScalarOk u.amountblinder)
    (h : WallyAuthenticatorLiquid._get_blinding_factors p rand txd wtx =
      some (res, outs, tx2)) :
    ((((chosenUtxos txd).map utxoContribution).sum -
        ((blindedOf outs).map outputContribution).sum) % (secpOrder : Int) = 0) ∧
    ∀ (k : Nat) (o : TxOutput), (blindedOf outs)[k]? = some o →
      o.assetblinder = some (bytesHex (rand (2 * k))) ∧
      (k + 1 < (blindedOf outs).length →
        o.amountblinder = some (bytesHex (rand (2 * k + 1)))) := by
  obtain ⟨abfChunks, vbfChunks, final_vbf, outs3, habf, hvbf, hfin, hlast, hcc, _⟩ :=
    gbf_inversion p rand txd wtx res outs tx2 h
  have houts : outs = outs3.map (commitUpd p) :=
    computeCommitments_fst p outs3 wtx (outs, tx2) hcc
  have hbo := filter_assignBlinders rand (assignWallyIndex txd.transaction_outputs) 0
  obtain ⟨_, hfil3, _⟩ := setLastBlindedVbf_spec _ _ _ hlast
  rw [hbo] at habf hvbf hfin hfil3
  set U := chosenUtxos txd with hUdef
  set bf := (assignWallyIndex txd.transaction_outputs).filter (fun o => !o.is_fee)
    with hbfdef
  -- every endpoint's blinders decode to 32 bytes
  have hEwf : ∀ e ∈ U.map UsedUtxo.toEndpoint ++
      (freshBlinded rand 0 bf).map TxOutput.toEndpoint,
      ∃ ba bv : Bytes, bytesFromHex e.assetblinder = some ba ∧ ba.length = 32 ∧
        bytesFromHex e.amountblinder = some bv ∧ bv.length = 32 := by
    intro e he
    rcases List.mem_append.mp he with hmu | hb
    · obtain ⟨u, humem, rfl⟩ := List.mem_map.mp hmu
      obtain ⟨h1, h2⟩ := hutxo u humem
      obtain ⟨ba, hba, hba32⟩ := hexScalarOk_spec _ h1
      obtain ⟨bv, hbv, hbv32⟩ := hexScalarOk_spec _ h2
      exact ⟨ba, bv, hba, hba32, hbv, hbv32⟩
    · obtain ⟨o', ho', rfl⟩ := List.mem_map.mp hb
      obtain ⟨m, hab, hvb⟩ := freshBlinded_mem rand bf 0 o' ho'
      have hea : (TxOutput.toEndpoint o').assetblinder = bytesHex (rand (2 * m)) := by
        simp [TxOutput.toEndpoint, hab]
      have hev : (TxOutput.toEndpoint o').amountblinder =
          bytesHex (rand (2 * m + 1)) := by
        simp [TxOutput.toEndpoint, hvb]
      refine ⟨rand (2 * m), rand (2 * m + 1), ?_, hrand _, ?_, hrand _⟩
      · rw [hea]; exact bytesFromHex_bytesHex _
      · rw [hev]; exact bytesFromHex_bytesHex _
  have hEab : ∀ e ∈ U.map UsedUtxo.toEndpoint ++
      (freshBlinded rand 0 bf).map TxOutput.toEndpoint,
      (bytesFromHex e.assetblinder).isSome = true := by
    intro e he
    obtain ⟨ba, bv, hba, _, _, _⟩ := hEwf e he
    rw [hba]; rfl
  have hEvb : ∀ e ∈ (U.map UsedUtxo.toEndpoint ++
      (freshBlinded rand 0 bf).map TxOutput.toEndpoint).dropLast,
      (bytesFromHex e.amountblinder).isSome = true := by
    intro e he
    obtain ⟨ba, bv, _, _, hbv, _⟩ :=
      hEwf e (List.Sublist.subset (List.dropLast_sublist _) he)
    rw [hbv]; rfl
  have habfeq : abfChunks = (U.map UsedUtxo.toEndpoint ++
      (freshBlinded rand 0 bf).map TxOutput.toEndpoint).map abfPiece := by
    rw [mapM_endpointAbf _ hEab] at habf
    exact (Option.some_inj.mp habf).symm
  have hvbfeq : vbfChunks = ((U.map UsedUtxo.toEndpoint ++
      (freshBlinded rand 0 bf).map TxOutput.toEndpoint).dropLast).map vbfPiece := by
    rw [mapM_endpointVbf _ hEvb] at hvbf
    exact (Option.some_inj.mp hvbf).symm
  have habf32 : ∀ c ∈ (U.map UsedUtxo.toEndpoint ++
      (freshBlinded rand 0 bf).map TxOutput.toEndpoint).map abfPiece,
      c.length = 32 := by
    intro c hc
    obtain ⟨e, he, rfl⟩ := List.mem_map.mp hc
    obtain ⟨ba, bv, hba, hba32, _, _⟩ := hEwf e he
    simp [abfPiece, hba, hba32]
  have hvbf32 : ∀ c ∈ ((U.map UsedUtxo.toEndpoint ++
      (freshBlinded rand 0 bf).map TxOutput.toEndpoint).dropLast).map vbfPiece,
      c.length = 32 := by
    intro c hc
    obtain ⟨e, he, rfl⟩ := List.mem_map.mp hc
    obtain ⟨ba, bv, _, _, hbv, hbv32⟩ :=
      hEwf e (List.Sublist.subset (List.dropLast_sublist _) he)
    simp [vbfPiece, hbv, hbv32]
  rw [habfeq, hvbfeq] at hfin
  obtain ⟨hun, hfbeq⟩ := asset_final_vbf_solves _ U.length _ _ final_vbf
    habf32 hvbf32 (by simp) (by simp) hfin
  -- there is at least one blinded output
  have hun' : U.length < U.length + (freshBlinded rand 0 bf).length := by
    simpa using hun
  have hbfne : bf ≠ [] := by
    intro hcon
    rw [hcon] at hun'
    simp [freshBlinded] at hun'
  obtain ⟨front0, lastO0, hbfsplit⟩ : ∃ f l, bf = f ++ [l] := by
    rcases List.eq_nil_or_concat bf with hnil | ⟨f, a, hcat⟩
    · exact absurd hnil hbfne
    · rw [List.concat_eq_append] at hcat
      exact ⟨f, a, hcat⟩
  rw [hbfsplit, freshBlinded_concat] at hfbeq hfil3
  simp only [Nat.zero_add] at hfbeq hfil3
  rw [applyLastVbf_concat] at hfil3
  have hEexp : List.map TxOutput.toEndpoint
      (freshBlinded rand 0 front0 ++ [freshUpd rand front0.length lastO0]) =
      List.map TxOutput.toEndpoint (freshBlinded rand 0 front0) ++
        [TxOutput.toEndpoint (freshUpd rand front0.length lastO0)] := by
    rw [List.map_append]
    rfl
  rw [hEexp, ← List.append_assoc] at hfbeq
  obtain ⟨hsIn, hsOut, hlastT⟩ := balance_sums (U.map UsedUtxo.toEndpoint)
    ((freshBlinded rand 0 front0).map TxOutput.toEndpoint)
    (TxOutput.toEndpoint (freshUpd rand front0.length lastO0)) U.length (by simp)
  rw [hsIn, hsOut, hlastT] at hfbeq
  have hUc : (U.map UsedUtxo.toEndpoint).map Endpoint.contribution =
      U.map utxoContribution := by
    rw [List.map_map]; rfl
  have hFc : ((freshBlinded rand 0 front0).map TxOutput.toEndpoint).map
      Endpoint.contribution = (freshBlinded rand 0 front0).map outputContribution := by
    rw [List.map_map]; rfl
  rw [hUc, hFc] at hfbeq
  set A := (U.map utxoContribution).sum with hA
  set B := ((freshBlinded rand 0 front0).map outputContribution).sum with hB
  set C := ((TxOutput.toEndpoint (freshUpd rand front0.length lastO0)).satoshi : Int) *
    (blinderScalar (TxOutput.toEndpoint
      (freshUpd rand front0.length lastO0)).assetblinder : Int) with hC
  -- the blinded outputs as returned
  have hblind : blindedOf outs =
      (freshBlinded rand 0 front0).map (commitUpd p) ++
        [commitUpd p (vbfUpd (bytesHex final_vbf.reverse)
          (freshUpd rand front0.length lastO0))] := by
    rw [houts]
    unfold blindedOf
    rw [filter_map_commitUpd, hfil3, List.map_append, List.map_cons, List.map_nil]
  have horder_pos : (0 : Int) < (secpOrder : Int) := by
    have hp : 0 < secpOrder := by decide
    exact_mod_cast hp
  have hmod_nonneg : 0 ≤ (A - B - C) % (secpOrder : Int) :=
    Int.emod_nonneg _ (ne_of_gt horder_pos)
  have hmod_lt : (A - B - C) % (secpOrder : Int) < (secpOrder : Int) :=
    Int.emod_lt_of_pos _ horder_pos
  have hlt : ((A - B - C) % (secpOrder : Int)).toNat < 256 ^ 32 := by
    have h256 : secpOrder < 256 ^ 32 := by decide
    omega
  have hv : blinderScalar (bytesHex final_vbf.reverse) =
      ((A - B - C) % (secpOrder : Int)).toNat := by
    unfold blinderScalar
    rw [bytesFromHex_bytesHex, Option.getD_some, List.reverse_reverse, hfbeq]
    exact bytesToScalar_scalarToBytes _ hlt
  constructor
  · -- the balance equation
    have hlastc : outputContribution (commitUpd p (vbfUpd (bytesHex final_vbf.reverse)
        (freshUpd rand front0.length lastO0))) =
        C + (blinderScalar (bytesHex final_vbf.reverse) : Int) := by
      rw [outputContribution_commitUpd, hC]
      rfl
    have hsum : ((blindedOf outs).map outputContribution).sum =
        B + (C + (blinderScalar (bytesHex final_vbf.reverse) : Int)) := by
      rw [hblind, List.map_append, List.map_cons, List.map_nil, List.sum_append]
      have h1 : ((freshBlinded rand 0 front0).map (commitUpd p)).map
          outputContribution = (freshBlinded rand 0 front0).map outputContribution := by
        rw [List.map_map,
          show outputContribution ∘ commitUpd p = outputContribution from
            funext fun o => outputContribution_commitUpd p o]
      rw [h1, hlastc]
      simp [hB]
    rw [hsum, hv]
    rw [Int.toNat_of_nonneg hmod_nonneg]
    have hring : A - (B + (C + (A - B - C) % (secpOrder : Int))) =
        (A - B - C) - (A - B - C) % (secpOrder : Int) := by ring
    rw [hring, Int.sub_emod, Int.emod_emod_of_dvd _ dvd_rfl, sub_self, Int.zero_emod]
  · -- per-output freshness of the random draws
    intro k o hk
    rw [hblind] at hk
    have hfflen : ((freshBlinded rand 0 front0).map (commitUpd p)).length =
        front0.length := by
      simp [freshBlinded_length]
    by_cases hklt : k < front0.length
    · rw [List.getElem?_append_left (by rw [hfflen]; exact hklt)] at hk
      rw [List.getElem?_map, freshBlinded_getElem] at hk
      simp only [Nat.zero_add] at hk
      cases hfk : front0[k]? with
      | none => rw [hfk] at hk; simp at hk
      | some o0 =>
          rw [hfk] at hk
          simp only [Option.map_some', Option.some_inj] at hk
          subst hk
          constructor
          · rw [(commitUpd_fields p _).2.2.2.2.1]
            rfl
          · intro _
            rw [(commitUpd_fields p _).2.2.2.2.2]
            rfl
    · rw [List.getElem?_append_right (by rw [hfflen]; omega)] at hk
      rw [hfflen] at hk
      rcases Nat.lt_or_ge k (front0.length + 1) with hk1 | hk1
      · have hkeq : k = front0.length := by omega
        subst hkeq
        rw [Nat.sub_self] at hk
        simp only [List.getElem?_cons_zero, Option.some_inj] at hk
        subst hk
        constructor
        · rw [(commitUpd_fields p _).2.2.2.2.1]
          rfl
        · intro hcon
          rw [hblind] at hcon
          simp [hfflen] at hcon
      · have hge : k - front0.length ≥ 1 := by omega
        rw [show k - front0.length = (k - front0.length - 1) + 1 by omega] at hk
        simp at hk

theorem blinding_balance_witness :
    ∃ (res : BlindingResult) (outs : List TxOutput) (tx2 : WallyTx),
      WallyAuthenticatorLiquid._get_blinding_factors trivPrims wRand
        wTxDetails wWallyTx = some (res, outs, tx2) ∧
      (((chosenUtxos wTxDetails).map utxoContribution).sum -
        ((blindedOf outs).map outputContribution).sum) % (secpOrder : Int) = 0 := by
  obtain ⟨⟨res, outs, tx2⟩, heq⟩ :
      ∃ r, WallyAuthenticatorLiquid._get_blinding_factors trivPrims wRand
        wTxDetails wWallyTx = some r :=
    Option.isSome_iff_exists.mp (by decide)
  exact ⟨res, outs, tx2, heq,
    (blinding_balance trivPrims wRand wTxDetails wWallyTx res outs tx2
      (fun j => rfl) (by decide) heq).1⟩

end GreenCli
